import Mathlib

/-!
Verification of the AA-tree implementation (src/aatree.c and the variant in
src/unnamed/part_000).

The development contains four models, each a shallow embedding of a part of
the source:

1. A pure functional model of the sequential tree algorithms of src/aatree.c
   (skew, split, rebalance_on_insert, insert_sub, rebalance_on_remove,
   steal_leftmost, drop_this_node, remove_sub, aatree_search, walk in-order).
   Sequentially (a single thread, all node states Open) every CAS retry loop
   in the source succeeds, so the retry plumbing disappears and the node
   state fields as well as the parent back-pointers are irrelevant to the
   values computed; the model keeps child pointers, the key and the level.
   Levels are modeled as Int, matching the C int fields.

2. A pointer/heap model of skew, keeping the parent back-references that the
   pure model drops (used for the claim about parent updates in skew).

3. A state-machine model of rebalancing_acquire / rebalancing_release over
   an explicit per-node state map (used for the acquisition-protocol claims).

4. A store-logging variant of the mutation path, recording every store whose
   target is the shared sentinel node NIL (used for the sentinel-immutability
   claim).
-/

/-- Binary tree with a key and an integer level per node.  `nil` stands for
the shared sentinel node NIL of src/aatree.c (level 0); `node l k v r` is a
real node with left child `l`, key `k`, level `v` and right child `r`.  The
key is the payload value compared by the external comparator (`my_node_cmp`
in src/main.c compares integer values). -/
inductive AATree where
  | nil : AATree
  | node (left : AATree) (key : Int) (level : Int) (right : AATree) : AATree
deriving DecidableEq, Repr

namespace AATree

/-- node_atomic_get_level, with NIL->level = 0 (the `_nil` initializer). -/
def lvl : AATree → Int
  | nil => 0
  | node _ _ v _ => v

/-- node_atomic_get_right, with NIL->right = NIL (the `_nil` initializer). -/
def rightOf : AATree → AATree
  | nil => nil
  | node _ _ _ r => r

/-- node_atomic_get_left, with NIL->left = NIL (the `_nil` initializer). -/
def leftOf : AATree → AATree
  | nil => nil
  | node l _ _ _ => l

/-- node_atomic_set_level on a subtree root.  A store to the sentinel does
not change the pure tree value (the logging model below records it). -/
def setLevel : AATree → Int → AATree
  | nil, _ => nil
  | node l k _ r, v => node l k v r

/-- node_atomic_set_right on a subtree root.  A store to the sentinel does
not change the pure tree value (the logging model below records it). -/
def setRight : AATree → AATree → AATree
  | nil, _ => nil
  | node l k v _, r => node l k v r

/-- skew from src/aatree.c lines 250-270: if x_level == y_level (y the left
child) and x is not NIL, rotate right and return y, else return x unchanged.
When the condition fires with a nil left child (possible only for a real
node of level 0, which never occurs in trees built by the operations) the C
code returns y == NIL, i.e. the subtree root becomes the sentinel. -/
def skew : AATree → AATree
  | nil => nil
  | node l k v r =>
    if v = lvl l then
      match l with
      | nil => nil
      | node a ky vy b => node a ky vy (node b k v r)
    else node l k v r

/-- split from src/aatree.c lines 281-303: if x_level equals the level of
the right child's right child and x is not NIL, rotate left, increment the
new root's level and return it, else return x unchanged.  When the condition
fires with a nil right child (possible only for a real node of level 0) the
C code returns y == NIL. -/
def split : AATree → AATree
  | nil => nil
  | node l k v r =>
    if v = lvl (rightOf r) then
      match r with
      | nil => nil
      | node rl ky vy rr => node (node l k v rl) ky (vy + 1) rr
    else node l k v r

/-- rebalance_on_insert from src/aatree.c lines 306-324: acquire the
neighborhood (always succeeds sequentially), apply skew then split,
release. -/
def rebalance_on_insert (current : AATree) : AATree :=
  split (skew current)

/-- rebalance_on_remove from src/aatree.c lines 327-377: if either child
level has fallen more than one below the current level, decrement the
current level, cap the right child's level, then skew(current),
skew(current.right), skew(current.right.right), split(current),
split(current.right), each intermediate store going through the current
subtree root exactly as in the source. -/
def rebalance_on_remove (current : AATree) : AATree :=
  match current with
  | nil => nil
  | node l k v r =>
    if lvl l < v - 1 ∨ lvl r < v - 1 then
      let r1 := if lvl r > v - 1 then setLevel r (v - 1) else r
      let c1 := skew (node l k (v - 1) r1)
      let c2 := setRight c1 (skew (rightOf c1))
      let c3 := setRight c2 (setRight (rightOf c2) (skew (rightOf (rightOf c2))))
      let c4 := split c3
      setRight c4 (split (rightOf c4))
    else node l k v r

/-- insert_sub from src/aatree.c lines 383-468.  At NIL the new node is
initialized (children NIL, level 1) and returned; descending, the child
pointer is relinked and rebalance_on_insert applied; on an equal comparison
the existing node is returned unchanged and no rebalance happens at that
node.  Sequentially the CAS on prev never fails, so the NIL-retry path is
absent.  The comparator is tree->node_cmp(value, current), positive when the
inserted value exceeds the node key (my_node_cmp in src/main.c). -/
def insert_sub : AATree → Int → AATree
  | nil, k => node nil k 1 nil
  | node l x v r, k =>
    if k > x then rebalance_on_insert (node l x v (insert_sub r k))
    else if k < x then rebalance_on_insert (node (insert_sub l k) x v r)
    else node l x v r

/-- aatree_insert from src/aatree.c lines 470-493: sequentially the single
insert_sub attempt succeeds and its result becomes the new root. -/
def aatree_insert (t : AATree) (k : Int) : AATree :=
  insert_sub t k

/-- steal_leftmost from src/aatree.c lines 500-510: walk to the leftmost
node of the subtree, return its right child in its place and rebalance every
ancestor on the way back; the second component is the key of the unlinked
leftmost node (the node saved through save_p, whose payload key survives the
struct copy in drop_this_node).  The nil case is unreachable from
drop_this_node, which only calls steal_leftmost on a real subtree. -/
def steal_leftmost : AATree → AATree × Int
  | nil => (nil, 0)
  | node nil k _ r => (r, k)
  | node (node a x vx b) k v r =>
    let s := steal_leftmost (node a x vx b)
    (rebalance_on_remove (node s.1 k v r), s.2)

/-- drop_this_node from src/aatree.c lines 513-543: splice a child when one
child is NIL; otherwise steal the in-order successor from the right subtree
and copy the dropped node's structural fields (left, right, level) onto it
(`*new = *old`), so the successor's key occupies the dropped slot. -/
def drop_this_node : AATree → AATree
  | nil => nil
  | node nil _ _ r => r
  | node l _ _ nil => l
  | node l _ v r =>
    let s := steal_leftmost r
    node l s.2 v s.1

/-- remove_sub from src/aatree.c lines 545-565: recursive descent by the
comparator; NIL means not found (returned unchanged, no rebalance); at the
matching node drop_this_node runs; every visited node is rebalanced with
rebalance_on_remove on the way back. -/
def remove_sub : AATree → Int → AATree
  | nil, _ => nil
  | node l x v r, k =>
    if k > x then rebalance_on_remove (node l x v (remove_sub r k))
    else if k < x then rebalance_on_remove (node (remove_sub l k) x v r)
    else rebalance_on_remove (drop_this_node (node l x v r))

/-- aatree_remove from src/aatree.c lines 567-570. -/
def aatree_remove (t : AATree) (k : Int) : AATree :=
  remove_sub t k

/-- aatree_search from src/aatree.c lines 634-656: iterative descent by the
comparator, returning the matching node or NULL (none) at NIL. -/
def aatree_search : AATree → Int → Option AATree
  | nil, _ => none
  | node l x v r, k =>
    if k > x then aatree_search r k
    else if k < x then aatree_search l k
    else some (node l x v r)

/-- Keys in symmetric order: walk_sub with AA_WALK_IN_ORDER (src/aatree.c
lines 576-602) projected to the visited keys. -/
def inorder : AATree → List Int
  | nil => []
  | node l k _ r => inorder l ++ k :: inorder r

/-- A node whose right child is strictly lower (no red right link). -/
def sngl : AATree → Bool
  | nil => false
  | node _ _ v r => decide (lvl r < v)

/-- The AA-tree level invariant: left child exactly one lower; right child
equal or one lower, and when equal (a red link) the right-right grandchild
is exactly one lower (no two consecutive red links). -/
def invar : AATree → Bool
  | nil => true
  | node l _ v r =>
    invar l && invar r && decide (lvl l + 1 = v) &&
      (decide (lvl r + 1 = v) || (decide (lvl r = v) && decide (lvl (rightOf r) + 1 = v)))

/-- The structural checker exactly as the specification states it: for every
real node, left-child level = level - 1, right-child level equals the level
or level - 1, and no right-right grandchild sits at the node's own level. -/
def levelsChecker : AATree → Bool
  | nil => true
  | node l _ v r =>
    decide (lvl l = v - 1) &&
      (decide (lvl r = v) || decide (lvl r = v - 1)) &&
      !decide (lvl (rightOf r) = v) &&
      levelsChecker l && levelsChecker r

/-- Keys are strictly ascending in symmetric order. -/
def sortedKeys (t : AATree) : Prop :=
  List.Pairwise (· < ·) (inorder t)

instance (t : AATree) : Decidable (sortedKeys t) := by
  unfold sortedKeys; infer_instance

/-- One sequential call of the public mutating API. -/
inductive TreeOp where
  | insert (k : Int)
  | remove (k : Int)
deriving DecidableEq, Repr

/-- Apply one public operation to the tree root, as main.c's driver does. -/
def applyOp (t : AATree) : TreeOp → AATree
  | .insert k => aatree_insert t k
  | .remove k => aatree_remove t k

/-- Run a sequence of operations starting from the empty tree
(root = NIL after aatree_init). -/
def buildTree (ops : List TreeOp) : AATree :=
  ops.foldl applyOp nil

/-- Every real node has a positive level.  Holds for every tree the
operations build (insert initializes level 1, split increments, the
remove-side decrement only fires on levels at least 2). -/
def levelsPos : AATree → Bool
  | nil => true
  | node l _ v r => decide (1 ≤ v) && levelsPos l && levelsPos r

theorem lvl_nonneg_of_levelsPos : ∀ {t : AATree}, levelsPos t = true → 0 ≤ lvl t
  | nil, _ => le_refl 0
  | node _ _ _ _, h => by
    simp only [levelsPos, Bool.and_eq_true, decide_eq_true_eq] at h
    simp only [lvl]
    omega

theorem levelsPos_rightOf {t : AATree} (h : levelsPos t = true) :
    levelsPos (rightOf t) = true := by
  cases t with
  | nil => exact h
  | node l k v r =>
    simp only [levelsPos, Bool.and_eq_true] at h
    exact h.2

theorem levelsPos_leftOf {t : AATree} (h : levelsPos t = true) :
    levelsPos (leftOf t) = true := by
  cases t with
  | nil => exact h
  | node l k v r =>
    simp only [levelsPos, Bool.and_eq_true] at h
    exact h.1.2

theorem invar_node_iff {l : AATree} {x v : Int} {r : AATree} :
    invar (node l x v r) = true ↔
      invar l = true ∧ invar r = true ∧ lvl l + 1 = v ∧
        (lvl r + 1 = v ∨ (lvl r = v ∧ lvl (rightOf r) + 1 = v)) := by
  simp [invar, Bool.and_eq_true, Bool.or_eq_true, decide_eq_true_eq, and_assoc]

theorem lvl_nonneg_of_invar : ∀ {t : AATree}, invar t = true → 0 ≤ lvl t
  | nil, _ => le_refl 0
  | node l x v r, h => by
    rw [invar_node_iff] at h
    have hl := lvl_nonneg_of_invar h.1
    simp only [lvl]
    omega

theorem lvl_pos_of_invar {t : AATree} (h : invar t = true) (hne : t ≠ nil) :
    1 ≤ lvl t := by
  cases t with
  | nil => exact absurd rfl hne
  | node l x v r =>
    rw [invar_node_iff] at h
    have hl := lvl_nonneg_of_invar h.1
    simp only [lvl]
    omega

theorem lvl_rightOf_le_of_invar {t : AATree} (h : invar t = true) :
    lvl (rightOf t) ≤ lvl t := by
  cases t with
  | nil => exact le_refl 0
  | node l x v r =>
    rw [invar_node_iff] at h
    have hr := lvl_nonneg_of_invar h.2.1
    show lvl r ≤ v
    rcases h.2.2.2 with h1 | h2 <;> omega

theorem levelsPos_of_invar : ∀ {t : AATree}, invar t = true → levelsPos t = true
  | nil, _ => rfl
  | node l x v r, h => by
    rw [invar_node_iff] at h
    obtain ⟨hl, hr, hv, _⟩ := h
    have := lvl_nonneg_of_invar hl
    simp only [levelsPos, Bool.and_eq_true, decide_eq_true_eq, lvl]
    exact ⟨⟨by omega, levelsPos_of_invar hl⟩, levelsPos_of_invar hr⟩

theorem lvl_skew : ∀ t : AATree, lvl (skew t) = lvl t := by
  intro t
  cases t with
  | nil => rfl
  | node l k v r =>
    cases l with
    | nil =>
      simp only [skew, lvl]
      split_ifs with h <;> simp [lvl] <;> omega
    | node a ky vy b =>
      simp only [skew, lvl]
      split_ifs with h <;> simp [lvl] <;> omega

theorem inorder_skew {t : AATree} (h : levelsPos t = true) :
    inorder (skew t) = inorder t := by
  cases t with
  | nil => rfl
  | node l k v r =>
    simp only [levelsPos, Bool.and_eq_true, decide_eq_true_eq] at h
    cases l with
    | nil =>
      have hc : ¬ (v = lvl AATree.nil) := by simp only [lvl]; omega
      simp [skew, hc]
    | node a ky vy b =>
      simp only [skew]
      split_ifs with hc <;> simp [inorder, List.append_assoc]

theorem levelsPos_skew {t : AATree} (h : levelsPos t = true) :
    levelsPos (skew t) = true := by
  cases t with
  | nil => exact h
  | node l k v r =>
    simp only [levelsPos, Bool.and_eq_true, decide_eq_true_eq] at h
    cases l with
    | nil =>
      have hc : ¬ (v = lvl AATree.nil) := by simp only [lvl]; omega
      simp only [skew, hc, if_false]
      simp [levelsPos, h.1.1, h.1.2, h.2]
    | node a ky vy b =>
      simp only [skew]
      split_ifs with hc <;>
        simp_all [levelsPos, lvl, Bool.and_eq_true, decide_eq_true_eq]

theorem inorder_split {t : AATree} (h : levelsPos t = true) :
    inorder (split t) = inorder t := by
  cases t with
  | nil => rfl
  | node l k v r =>
    simp only [levelsPos, Bool.and_eq_true, decide_eq_true_eq] at h
    cases r with
    | nil =>
      have hc : ¬ (v = lvl (rightOf AATree.nil)) := by
        simp only [rightOf, lvl]; omega
      simp [split, hc]
    | node rl ky vy rr =>
      simp only [split]
      split_ifs with hc <;> simp [inorder, List.append_assoc]

theorem levelsPos_split {t : AATree} (h : levelsPos t = true) :
    levelsPos (split t) = true := by
  cases t with
  | nil => exact h
  | node l k v r =>
    simp only [levelsPos, Bool.and_eq_true, decide_eq_true_eq] at h
    cases r with
    | nil =>
      have hc : ¬ (v = lvl (rightOf AATree.nil)) := by
        simp only [rightOf, lvl]; omega
      simp only [split, hc, if_false]
      simp [levelsPos, h.1.1, h.1.2, h.2]
    | node rl ky vy rr =>
      simp only [split]
      split_ifs with hc <;>
        simp_all [levelsPos, lvl, Bool.and_eq_true, decide_eq_true_eq] <;>
        omega

theorem skew_id_of_invar {t : AATree} (h : invar t = true) : skew t = t := by
  cases t with
  | nil => rfl
  | node l k v r =>
    rw [invar_node_iff] at h
    have hc : ¬ (v = lvl l) := by omega
    cases l with
    | nil => simp [skew, hc]
    | node a ky vy b => simp [skew, hc]

theorem split_id_of_invar {t : AATree} (h : invar t = true) : split t = t := by
  cases t with
  | nil => rfl
  | node l k v r =>
    rw [invar_node_iff] at h
    have hrr := lvl_rightOf_le_of_invar h.2.1
    have hc : ¬ (v = lvl (rightOf r)) := by
      rcases h.2.2.2 with h1 | h2
      · omega
      · omega
    cases r with
    | nil => simp [split, hc]
    | node rl ky vy rr => simp [split, hc]

theorem inorder_setLevel (t : AATree) (w : Int) :
    inorder (setLevel t w) = inorder t := by
  cases t <;> rfl

theorem levelsPos_setLevel {t : AATree} {w : Int} (h : levelsPos t = true)
    (hw : 1 ≤ w) : levelsPos (setLevel t w) = true := by
  cases t with
  | nil => rfl
  | node l k v r =>
    simp only [levelsPos, Bool.and_eq_true, decide_eq_true_eq, setLevel] at *
    exact ⟨⟨hw, h.1.2⟩, h.2⟩

theorem inorder_setRight {t u : AATree} (hu : inorder u = inorder (rightOf t)) :
    inorder (setRight t u) = inorder t := by
  cases t with
  | nil => rfl
  | node l k v r =>
    simp only [rightOf] at hu
    simp only [setRight, inorder, hu]

theorem levelsPos_setRight {t u : AATree} (ht : levelsPos t = true)
    (hu : levelsPos u = true) : levelsPos (setRight t u) = true := by
  cases t with
  | nil => rfl
  | node l k v r =>
    simp only [levelsPos, Bool.and_eq_true, setRight] at *
    exact ⟨ht.1, hu⟩

/-- The statement sequence current.right = skew(current.right) of
rebalance_on_remove, as one function of the current subtree. -/
def step2 (u : AATree) : AATree :=
  setRight u (skew (rightOf u))

/-- The statement sequence current.right.right = skew(current.right.right)
of rebalance_on_remove, as one function of the current subtree. -/
def step3 (u : AATree) : AATree :=
  setRight u (setRight (rightOf u) (skew (rightOf (rightOf u))))

/-- The statement sequence current = split(current);
current.right = split(current.right) of rebalance_on_remove, as one
function of the current subtree. -/
def step45 (u : AATree) : AATree :=
  setRight (split u) (split (rightOf (split u)))

theorem rebalance_on_remove_fire {l : AATree} {k v : Int} {r : AATree}
    (hfire : lvl l < v - 1 ∨ lvl r < v - 1) :
    rebalance_on_remove (node l k v r) =
      step45 (step3 (step2 (skew (node l k (v - 1)
        (if lvl r > v - 1 then setLevel r (v - 1) else r))))) := by
  simp only [rebalance_on_remove, if_pos hfire]
  rfl

theorem rebalance_on_remove_skip {l : AATree} {k v : Int} {r : AATree}
    (hfire : ¬ (lvl l < v - 1 ∨ lvl r < v - 1)) :
    rebalance_on_remove (node l k v r) = node l k v r := by
  simp only [rebalance_on_remove, if_neg hfire]

theorem step2_facts {u : AATree} (h : levelsPos u = true) :
    inorder (step2 u) = inorder u ∧ levelsPos (step2 u) = true := by
  have hr := levelsPos_rightOf h
  exact ⟨inorder_setRight (inorder_skew hr),
    levelsPos_setRight h (levelsPos_skew hr)⟩

theorem step3_facts {u : AATree} (h : levelsPos u = true) :
    inorder (step3 u) = inorder u ∧ levelsPos (step3 u) = true := by
  have hr := levelsPos_rightOf h
  have hrr := levelsPos_rightOf hr
  have hinner : inorder (setRight (rightOf u) (skew (rightOf (rightOf u)))) =
      inorder (rightOf u) := inorder_setRight (inorder_skew hrr)
  exact ⟨inorder_setRight hinner,
    levelsPos_setRight h (levelsPos_setRight hr (levelsPos_skew hrr))⟩

theorem step45_facts {u : AATree} (h : levelsPos u = true) :
    inorder (step45 u) = inorder u ∧ levelsPos (step45 u) = true := by
  have hs := levelsPos_split h
  have hr := levelsPos_rightOf hs
  refine ⟨?_, levelsPos_setRight hs (levelsPos_split hr)⟩
  calc inorder (step45 u) = inorder (split u) :=
        inorder_setRight (inorder_split hr)
    _ = inorder u := inorder_split h

theorem rebalance_on_remove_facts {t : AATree} (h : levelsPos t = true) :
    inorder (rebalance_on_remove t) = inorder t ∧
      levelsPos (rebalance_on_remove t) = true := by
  cases t with
  | nil => exact ⟨rfl, rfl⟩
  | node l k v r =>
    simp only [levelsPos, Bool.and_eq_true, decide_eq_true_eq] at h
    obtain ⟨⟨hv, hl⟩, hr⟩ := h
    by_cases hfire : lvl l < v - 1 ∨ lvl r < v - 1
    · have hln := lvl_nonneg_of_levelsPos hl
      have hrn := lvl_nonneg_of_levelsPos hr
      have hv2 : (2 : Int) ≤ v := by rcases hfire with h1 | h1 <;> omega
      rw [rebalance_on_remove_fire hfire]
      have hr1 : levelsPos (if lvl r > v - 1 then setLevel r (v - 1) else r)
          = true := by
        split_ifs with hcap
        · exact levelsPos_setLevel hr (by omega)
        · exact hr
      have hir1 : inorder (if lvl r > v - 1 then setLevel r (v - 1) else r)
          = inorder r := by
        split_ifs with hcap
        · exact inorder_setLevel r (v - 1)
        · rfl
      have hu0 : levelsPos (node l k (v - 1)
          (if lvl r > v - 1 then setLevel r (v - 1) else r)) = true := by
        simp only [levelsPos, Bool.and_eq_true, decide_eq_true_eq]
        exact ⟨⟨by omega, hl⟩, hr1⟩
      have hc1p := levelsPos_skew hu0
      have hc1i := inorder_skew hu0
      obtain ⟨h2i, h2p⟩ := step2_facts hc1p
      obtain ⟨h3i, h3p⟩ := step3_facts h2p
      obtain ⟨h45i, h45p⟩ := step45_facts h3p
      refine ⟨?_, h45p⟩
      rw [h45i, h3i, h2i, hc1i]
      simp only [inorder, hir1]
    · rw [rebalance_on_remove_skip hfire]
      refine ⟨rfl, ?_⟩
      simp only [levelsPos, Bool.and_eq_true, decide_eq_true_eq]
      exact ⟨⟨hv, hl⟩, hr⟩

theorem steal_leftmost_facts : ∀ {t : AATree}, t ≠ nil → levelsPos t = true →
    inorder t = (steal_leftmost t).2 :: inorder (steal_leftmost t).1 ∧
      levelsPos (steal_leftmost t).1 = true := by
  intro t
  induction t with
  | nil => intro h; exact absurd rfl h
  | node l k v r ihl ihr =>
    intro _ hp
    simp only [levelsPos, Bool.and_eq_true, decide_eq_true_eq] at hp
    obtain ⟨⟨hv, hl⟩, hr⟩ := hp
    cases l with
    | nil =>
      exact ⟨by simp [steal_leftmost, inorder], hr⟩
    | node a x vx b =>
      have hne : (node a x vx b : AATree) ≠ nil := by intro hc; cases hc
      obtain ⟨hIl, hPl⟩ := ihl hne hl
      have hmid : levelsPos
          (node (steal_leftmost (node a x vx b)).1 k v r) = true := by
        simp only [levelsPos, Bool.and_eq_true, decide_eq_true_eq]
        exact ⟨⟨hv, hPl⟩, hr⟩
      obtain ⟨hri, hrp⟩ := rebalance_on_remove_facts hmid
      simp only [steal_leftmost]
      refine ⟨?_, hrp⟩
      have h1 : inorder (node (node a x vx b) k v r)
          = inorder (node a x vx b) ++ k :: inorder r := rfl
      rw [h1, hIl, hri]
      have h2 : inorder (node (steal_leftmost (node a x vx b)).1 k v r)
          = inorder (steal_leftmost (node a x vx b)).1 ++ k :: inorder r := rfl
      rw [h2]
      simp [List.cons_append]

theorem drop_this_node_facts {l : AATree} {k v : Int} {r : AATree}
    (hp : levelsPos (node l k v r) = true) :
    inorder (drop_this_node (node l k v r)) = inorder l ++ inorder r ∧
      levelsPos (drop_this_node (node l k v r)) = true := by
  simp only [levelsPos, Bool.and_eq_true, decide_eq_true_eq] at hp
  obtain ⟨⟨hv, hl⟩, hr⟩ := hp
  cases l with
  | nil =>
    exact ⟨by simp [drop_this_node, inorder], by simp [drop_this_node]; exact hr⟩
  | node a x vx b =>
    cases r with
    | nil =>
      exact ⟨by simp [drop_this_node, inorder], by simp [drop_this_node]; exact hl⟩
    | node c y vy d =>
      have hne : (node c y vy d : AATree) ≠ nil := by intro hc; cases hc
      obtain ⟨hIr, hPr⟩ := steal_leftmost_facts hne hr
      simp only [drop_this_node]
      constructor
      · have h1 : inorder (node (node a x vx b)
            (steal_leftmost (node c y vy d)).2 v
            (steal_leftmost (node c y vy d)).1)
            = inorder (node a x vx b) ++
              (steal_leftmost (node c y vy d)).2 ::
                inorder (steal_leftmost (node c y vy d)).1 := rfl
        rw [h1, ← hIr]
      · simp only [levelsPos, Bool.and_eq_true, decide_eq_true_eq] at hl ⊢
        exact ⟨⟨hv, hl⟩, hPr⟩

theorem sortedKeys_node_iff {l : AATree} {x v : Int} {r : AATree} :
    sortedKeys (node l x v r) ↔
      sortedKeys l ∧ sortedKeys r ∧
        (∀ a ∈ inorder l, a < x) ∧ (∀ b ∈ inorder r, x < b) := by
  simp only [sortedKeys, inorder, List.pairwise_append, List.pairwise_cons]
  constructor
  · rintro ⟨h1, ⟨h2, h3⟩, h4⟩
    exact ⟨h1, h3, fun a ha => h4 a ha x (List.mem_cons_self x _), h2⟩
  · rintro ⟨h1, h2, h3, h4⟩
    refine ⟨h1, ⟨h4, h2⟩, ?_⟩
    intro a ha b hb
    rcases List.mem_cons.mp hb with rfl | hb
    · exact h3 a ha
    · exact lt_trans (h3 a ha) (h4 b hb)

theorem filter_cons_true {p : Int → Bool} {a : Int} {l : List Int}
    (h : p a = true) : (a :: l).filter p = a :: l.filter p := by
  simp [List.filter_cons, h]

theorem filter_cons_false {p : Int → Bool} {a : Int} {l : List Int}
    (h : p a = false) : (a :: l).filter p = l.filter p := by
  simp [List.filter_cons, h]

theorem remove_sub_facts : ∀ {t : AATree} (k : Int), sortedKeys t →
    levelsPos t = true →
    inorder (remove_sub t k) = (inorder t).filter (fun a => decide (a ≠ k)) ∧
      levelsPos (remove_sub t k) = true := by
  intro t
  induction t with
  | nil => intro k _ _; exact ⟨rfl, rfl⟩
  | node l x v r ihl ihr =>
    intro k hs hp
    have hpn := hp
    simp only [levelsPos, Bool.and_eq_true, decide_eq_true_eq] at hp
    obtain ⟨⟨hv, hl⟩, hr⟩ := hp
    rw [sortedKeys_node_iff] at hs
    obtain ⟨hsl, hsr, hbl, hbr⟩ := hs
    by_cases hgt : k > x
    · obtain ⟨ihi, ihp⟩ := ihr k hsr hr
      have hmid : levelsPos (node l x v (remove_sub r k)) = true := by
        simp only [levelsPos, Bool.and_eq_true, decide_eq_true_eq]
        exact ⟨⟨hv, hl⟩, ihp⟩
      obtain ⟨hri, hrp⟩ := rebalance_on_remove_facts hmid
      simp only [remove_sub, if_pos hgt]
      refine ⟨?_, hrp⟩
      rw [hri]
      have h1 : inorder (node l x v (remove_sub r k))
          = inorder l ++ x :: inorder (remove_sub r k) := rfl
      have h2 : inorder (node l x v r) = inorder l ++ x :: inorder r := rfl
      have hfleq : (inorder l).filter (fun a => decide (a ≠ k)) = inorder l := by
        rw [List.filter_eq_self]
        intro a ha
        have := hbl a ha
        simp only [decide_eq_true_eq]
        omega
      have hxk : decide (x ≠ k) = true := by
        simp only [decide_eq_true_eq]
        omega
      rw [h1, h2, ihi, List.filter_append, hfleq, filter_cons_true hxk]
    · by_cases hlt : k < x
      · obtain ⟨ihi, ihp⟩ := ihl k hsl hl
        have hmid : levelsPos (node (remove_sub l k) x v r) = true := by
          simp only [levelsPos, Bool.and_eq_true, decide_eq_true_eq]
          exact ⟨⟨hv, ihp⟩, hr⟩
        obtain ⟨hri, hrp⟩ := rebalance_on_remove_facts hmid
        simp only [remove_sub, if_neg hgt, if_pos hlt]
        refine ⟨?_, hrp⟩
        rw [hri]
        have h1 : inorder (node (remove_sub l k) x v r)
            = inorder (remove_sub l k) ++ x :: inorder r := rfl
        have h2 : inorder (node l x v r) = inorder l ++ x :: inorder r := rfl
        have hfreq : (inorder r).filter (fun a => decide (a ≠ k)) = inorder r := by
          rw [List.filter_eq_self]
          intro b hb
          have := hbr b hb
          simp only [decide_eq_true_eq]
          omega
        have hxk : decide (x ≠ k) = true := by
          simp only [decide_eq_true_eq]
          omega
        rw [h1, h2, ihi, List.filter_append, filter_cons_true hxk, hfreq]
      · have hk : k = x := by omega
        obtain ⟨hdi, hdp⟩ := drop_this_node_facts hpn
        obtain ⟨hri, hrp⟩ := rebalance_on_remove_facts hdp
        simp only [remove_sub, if_neg hgt, if_neg hlt]
        refine ⟨?_, hrp⟩
        rw [hri, hdi]
        have h2 : inorder (node l x v r) = inorder l ++ x :: inorder r := rfl
        have hfleq : (inorder l).filter (fun a => decide (a ≠ k)) = inorder l := by
          rw [List.filter_eq_self]
          intro a ha
          have := hbl a ha
          simp only [decide_eq_true_eq]
          omega
        have hfreq : (inorder r).filter (fun a => decide (a ≠ k)) = inorder r := by
          rw [List.filter_eq_self]
          intro b hb
          have := hbr b hb
          simp only [decide_eq_true_eq]
          omega
        have hxk : decide (x ≠ k) = false := by
          simp only [decide_eq_false_iff_not]
          omega
        rw [h2, List.filter_append, hfleq, filter_cons_false hxk, hfreq]

theorem insert_sub_facts : ∀ {t : AATree} (k : Int), sortedKeys t →
    levelsPos t = true →
    levelsPos (insert_sub t k) = true ∧ sortedKeys (insert_sub t k) ∧
      (∀ a, a ∈ inorder (insert_sub t k) ↔ a = k ∨ a ∈ inorder t) := by
  intro t
  induction t with
  | nil =>
    intro k _ _
    refine ⟨by simp [insert_sub, levelsPos], ?_, ?_⟩
    · simp [insert_sub, sortedKeys, inorder]
    · intro a
      simp [insert_sub, inorder]
  | node l x v r ihl ihr =>
    intro k hs hp
    have hpn := hp
    simp only [levelsPos, Bool.and_eq_true, decide_eq_true_eq] at hp
    obtain ⟨⟨hv, hl⟩, hr⟩ := hp
    rw [sortedKeys_node_iff] at hs
    obtain ⟨hsl, hsr, hbl, hbr⟩ := hs
    by_cases hgt : k > x
    · obtain ⟨ihp, ihs, ihm⟩ := ihr k hsr hr
      have hmid : levelsPos (node l x v (insert_sub r k)) = true := by
        simp only [levelsPos, Bool.and_eq_true, decide_eq_true_eq]
        exact ⟨⟨hv, hl⟩, ihp⟩
      have hsk := levelsPos_skew hmid
      have hio : inorder (rebalance_on_insert (node l x v (insert_sub r k)))
          = inorder l ++ x :: inorder (insert_sub r k) := by
        unfold rebalance_on_insert
        rw [inorder_split hsk, inorder_skew hmid]
        rfl
      simp only [insert_sub, if_pos hgt]
      refine ⟨levelsPos_split hsk, ?_, ?_⟩
      · show List.Pairwise (· < ·)
          (inorder (rebalance_on_insert (node l x v (insert_sub r k))))
        rw [hio, List.pairwise_append]
        refine ⟨hsl, ?_, ?_⟩
        · rw [List.pairwise_cons]
          refine ⟨?_, ihs⟩
          intro b hb
          rcases (ihm b).mp hb with rfl | hb2
          · omega
          · exact hbr b hb2
        · intro a ha b hb
          have hax := hbl a ha
          rcases List.mem_cons.mp hb with rfl | hb2
          · exact hax
          · rcases (ihm b).mp hb2 with rfl | hb3
            · omega
            · exact lt_trans hax (hbr b hb3)
      · intro a
        have h2 : inorder (node l x v r) = inorder l ++ x :: inorder r := rfl
        rw [hio, h2]
        simp only [List.mem_append, List.mem_cons, ihm a]
        tauto
    · by_cases hlt : k < x
      · obtain ⟨ihp, ihs, ihm⟩ := ihl k hsl hl
        have hmid : levelsPos (node (insert_sub l k) x v r) = true := by
          simp only [levelsPos, Bool.and_eq_true, decide_eq_true_eq]
          exact ⟨⟨hv, ihp⟩, hr⟩
        have hsk := levelsPos_skew hmid
        have hio : inorder (rebalance_on_insert (node (insert_sub l k) x v r))
            = inorder (insert_sub l k) ++ x :: inorder r := by
          unfold rebalance_on_insert
          rw [inorder_split hsk, inorder_skew hmid]
          rfl
        simp only [insert_sub, if_neg hgt, if_pos hlt]
        refine ⟨levelsPos_split hsk, ?_, ?_⟩
        · show List.Pairwise (· < ·)
            (inorder (rebalance_on_insert (node (insert_sub l k) x v r)))
          rw [hio, List.pairwise_append]
          refine ⟨ihs, ?_, ?_⟩
          · rw [List.pairwise_cons]
            exact ⟨fun b hb => hbr b hb, hsr⟩
          · intro a ha b hb
            have hax : a < x := by
              rcases (ihm a).mp ha with rfl | ha2
              · omega
              · exact hbl a ha2
            rcases List.mem_cons.mp hb with rfl | hb2
            · exact hax
            · exact lt_trans hax (hbr b hb2)
        · intro a
          have h2 : inorder (node l x v r) = inorder l ++ x :: inorder r := rfl
          rw [hio, h2]
          simp only [List.mem_append, List.mem_cons, ihm a]
          tauto
      · have hk : k = x := by omega
        simp only [insert_sub, if_neg hgt, if_neg hlt]
        refine ⟨hpn, ?_, ?_⟩
        · rw [sortedKeys_node_iff]
          exact ⟨hsl, hsr, hbl, hbr⟩
        · intro a
          constructor
          · intro ha
            exact Or.inr ha
          · rintro (rfl | ha)
            · subst hk
              exact List.mem_append_right _ (List.mem_cons_self _ _)
            · exact ha

theorem aatree_search_found : ∀ {t : AATree} {k : Int}, sortedKeys t →
    k ∈ inorder t → ∃ l v r, aatree_search t k = some (node l k v r) := by
  intro t
  induction t with
  | nil =>
    intro k _ h
    simp [inorder] at h
  | node l x v r ihl ihr =>
    intro k hs hm
    rw [sortedKeys_node_iff] at hs
    obtain ⟨hsl, hsr, hbl, hbr⟩ := hs
    have h2 : inorder (node l x v r) = inorder l ++ x :: inorder r := rfl
    rw [h2] at hm
    by_cases hgt : k > x
    · have hm2 : k ∈ inorder r := by
        rcases List.mem_append.mp hm with h | h
        · have := hbl k h
          omega
        · rcases List.mem_cons.mp h with rfl | h
          · omega
          · exact h
      simp only [aatree_search, if_pos hgt]
      exact ihr hsr hm2
    · by_cases hlt : k < x
      · have hm2 : k ∈ inorder l := by
          rcases List.mem_append.mp hm with h | h
          · exact h
          · rcases List.mem_cons.mp h with rfl | h
            · omega
            · have := hbr k h
              omega
        simp only [aatree_search, if_neg hgt, if_pos hlt]
        exact ihl hsl hm2
      · have hk : k = x := by omega
        subst hk
        simp only [aatree_search, if_neg hgt, if_neg hlt]
        exact ⟨l, v, r, rfl⟩

theorem aatree_search_not_found : ∀ {t : AATree} {k : Int},
    k ∉ inorder t → aatree_search t k = none := by
  intro t
  induction t with
  | nil =>
    intro k _
    rfl
  | node l x v r ihl ihr =>
    intro k hm
    have h2 : inorder (node l x v r) = inorder l ++ x :: inorder r := rfl
    rw [h2] at hm
    simp only [List.mem_append, List.mem_cons, not_or] at hm
    obtain ⟨hml, hmx, hmr⟩ := hm
    by_cases hgt : k > x
    · simp only [aatree_search, if_pos hgt]
      exact ihr hmr
    · by_cases hlt : k < x
      · simp only [aatree_search, if_neg hgt, if_pos hlt]
        exact ihl hml
      · omega

theorem applyOp_facts {t : AATree} (op : TreeOp) (hs : sortedKeys t)
    (hp : levelsPos t = true) :
    sortedKeys (applyOp t op) ∧ levelsPos (applyOp t op) = true := by
  cases op with
  | insert k =>
    obtain ⟨h1, h2, _⟩ := insert_sub_facts k hs hp
    exact ⟨h2, h1⟩
  | remove k =>
    obtain ⟨h1, h2⟩ := remove_sub_facts k hs hp
    refine ⟨?_, h2⟩
    show List.Pairwise (· < ·) (inorder (remove_sub t k))
    rw [h1]
    exact List.Pairwise.filter _ hs

theorem buildTree_facts (ops : List TreeOp) :
    sortedKeys (buildTree ops) ∧ levelsPos (buildTree ops) = true := by
  suffices h : ∀ (t : AATree), sortedKeys t → levelsPos t = true →
      sortedKeys (ops.foldl applyOp t) ∧
        levelsPos (ops.foldl applyOp t) = true by
    exact h nil (by simp [sortedKeys, inorder]) rfl
  induction ops with
  | nil =>
    intro t hs hp
    exact ⟨hs, hp⟩
  | cons op rest ih =>
    intro t hs hp
    obtain ⟨h1, h2⟩ := applyOp_facts op hs hp
    exact ih _ h1 h2

theorem buildTree_inserts_mem (ks : List Int) (a : Int) :
    a ∈ inorder (buildTree (ks.map TreeOp.insert)) ↔ a ∈ ks := by
  suffices h : ∀ (t : AATree), sortedKeys t → levelsPos t = true →
      (a ∈ inorder ((ks.map TreeOp.insert).foldl applyOp t) ↔
        a ∈ ks ∨ a ∈ inorder t) by
    have := h nil (by simp [sortedKeys, inorder]) rfl
    simpa [inorder] using this
  induction ks with
  | nil =>
    intro t _ _
    simp
  | cons kk rest ih =>
    intro t hs hp
    simp only [List.map_cons, List.foldl_cons]
    obtain ⟨hp2, hs2, hm⟩ := insert_sub_facts kk hs hp
    have hstep := ih (applyOp t (.insert kk)) hs2 hp2
    rw [hstep]
    simp only [applyOp, aatree_insert]
    rw [hm a]
    simp only [List.mem_cons]
    tauto

theorem lvl_nil : lvl (nil : AATree) = 0 := rfl

theorem lvl_node (l : AATree) (x v : Int) (r : AATree) :
    lvl (node l x v r) = v := rfl

theorem rightOf_node (l : AATree) (x v : Int) (r : AATree) :
    rightOf (node l x v r) = r := rfl

theorem sngl_node (l : AATree) (x v : Int) (r : AATree) :
    sngl (node l x v r) = decide (lvl r < v) := rfl

theorem ne_nil_of_lvl_pos {t : AATree} (h : 1 ≤ lvl t) : t ≠ nil := by
  intro hn
  subst hn
  simp only [lvl] at h
  omega

theorem skew_skip {l : AATree} {x v : Int} {r : AATree} (h : ¬ v = lvl l) :
    skew (node l x v r) = node l x v r := by
  cases l <;> simp [skew, h]

theorem skew_rotate {a : AATree} {p vp : Int} {b : AATree} {x v : Int}
    {r : AATree} (h : v = vp) :
    skew (node (node a p vp b) x v r) = node a p vp (node b x v r) := by
  have hc : v = lvl (node a p vp b) := by simp [lvl, h]
  simp [skew, hc]

theorem split_skip {l : AATree} {x v : Int} {r : AATree}
    (h : ¬ v = lvl (rightOf r)) :
    split (node l x v r) = node l x v r := by
  cases r <;> simp [split, h] <;> simp [rightOf] at h <;> simp [h]

theorem split_rotate {l : AATree} {x v : Int} {rl : AATree} {ry vy : Int}
    {rr : AATree} (h : v = lvl rr) :
    split (node l x v (node rl ry vy rr)) =
      node (node l x v rl) ry (vy + 1) rr := by
  have hc : v = lvl (rightOf (node rl ry vy rr)) := by simp [rightOf, h]
  simp [split, hc]

theorem rightOf_lvl_of_sngl {t : AATree} (hi : invar t = true)
    (hs : sngl t = true) (hne : t ≠ nil) : lvl (rightOf t) + 1 = lvl t := by
  cases t with
  | nil => exact absurd rfl hne
  | node l x v r =>
    rw [invar_node_iff] at hi
    simp only [sngl, decide_eq_true_eq] at hs
    show lvl r + 1 = v
    rcases hi.2.2.2 with h | h
    · exact h
    · obtain ⟨h1, h2⟩ := h
      omega

theorem invar_rightOf_cases {t : AATree} (hi : invar t = true) (hne : t ≠ nil) :
    lvl (rightOf t) + 1 = lvl t ∨ lvl (rightOf t) = lvl t := by
  cases t with
  | nil => exact absurd rfl hne
  | node l x v r =>
    rw [invar_node_iff] at hi
    show lvl r + 1 = v ∨ lvl r = v
    rcases hi.2.2.2 with h | h
    · exact Or.inl h
    · exact Or.inr h.1

theorem insert_sub_mem_id : ∀ {t : AATree} {k : Int}, invar t = true →
    sortedKeys t → k ∈ inorder t → insert_sub t k = t := by
  intro t
  induction t with
  | nil =>
    intro k _ _ h
    simp [inorder] at h
  | node l x v r ihl ihr =>
    intro k hi hs hm
    have hi0 := hi
    rw [invar_node_iff] at hi
    obtain ⟨hil, hir, hlv, hrc⟩ := hi
    rw [sortedKeys_node_iff] at hs
    obtain ⟨hsl, hsr, hbl, hbr⟩ := hs
    have h2 : inorder (node l x v r) = inorder l ++ x :: inorder r := rfl
    rw [h2] at hm
    by_cases hgt : k > x
    · have hm2 : k ∈ inorder r := by
        rcases List.mem_append.mp hm with h | h
        · have := hbl k h
          omega
        · rcases List.mem_cons.mp h with rfl | h
          · omega
          · exact h
      simp only [insert_sub, if_pos hgt]
      rw [ihr hir hsr hm2]
      unfold rebalance_on_insert
      rw [skew_id_of_invar hi0, split_id_of_invar hi0]
    · by_cases hlt : k < x
      · have hm2 : k ∈ inorder l := by
          rcases List.mem_append.mp hm with h | h
          · exact h
          · rcases List.mem_cons.mp h with rfl | h
            · omega
            · have := hbr k h
              omega
        simp only [insert_sub, if_neg hgt, if_pos hlt]
        rw [ihl hil hsl hm2]
        unfold rebalance_on_insert
        rw [skew_id_of_invar hi0, split_id_of_invar hi0]
      · simp only [insert_sub, if_neg hgt, if_neg hlt]

theorem insert_post : ∀ {t : AATree} (k : Int), invar t = true →
    invar (insert_sub t k) = true ∧
      (lvl (insert_sub t k) = lvl t ∨
        (lvl (insert_sub t k) = lvl t + 1 ∧ sngl (insert_sub t k) = true)) ∧
      (t ≠ nil → sngl t = true → lvl (insert_sub t k) = lvl t) := by
  intro t
  induction t with
  | nil =>
    intro k _
    refine ⟨rfl, Or.inr ⟨rfl, rfl⟩, fun h _ => absurd rfl h⟩
  | node l x v r ihl ihr =>
    intro k hi
    have hi0 := hi
    rw [invar_node_iff] at hi
    obtain ⟨hil, hir, hlv, hrc⟩ := hi
    have hl0 := lvl_nonneg_of_invar hil
    have hr0 := lvl_nonneg_of_invar hir
    by_cases hgt : k > x
    · obtain ⟨ihI, ihL, ihS⟩ := ihr k hir
      simp only [insert_sub, if_pos hgt, rebalance_on_insert]
      have hskew : skew (node l x v (insert_sub r k)) =
          node l x v (insert_sub r k) := skew_skip (by omega)
      rw [hskew]
      rcases hrc with hca | hcb
      · rcases ihL with hkeep | ⟨hraise, hsngl⟩
        · have hrole := lvl_rightOf_le_of_invar ihI
          have hsp : split (node l x v (insert_sub r k)) =
              node l x v (insert_sub r k) := split_skip (by omega)
          rw [hsp]
          have hinv : invar (node l x v (insert_sub r k)) = true := by
            rw [invar_node_iff]
            exact ⟨hil, ihI, hlv, Or.inl (by omega)⟩
          exact ⟨hinv, Or.inl rfl, fun _ _ => rfl⟩
        · have hne2 : insert_sub r k ≠ nil := ne_nil_of_lvl_pos (by omega)
          have hrr2 := rightOf_lvl_of_sngl ihI hsngl hne2
          have hsp : split (node l x v (insert_sub r k)) =
              node l x v (insert_sub r k) := split_skip (by omega)
          rw [hsp]
          have hinv : invar (node l x v (insert_sub r k)) = true := by
            rw [invar_node_iff]
            exact ⟨hil, ihI, hlv, Or.inr ⟨by omega, by omega⟩⟩
          exact ⟨hinv, Or.inl rfl, fun _ _ => rfl⟩
      · obtain ⟨hrv, hrrv⟩ := hcb
        have hner : r ≠ nil := ne_nil_of_lvl_pos (by omega)
        have hsnglr : sngl r = true := by
          cases r with
          | nil => exact absurd rfl hner
          | node rl ry vy rr =>
            simp only [sngl, decide_eq_true_eq]
            simp only [rightOf] at hrrv
            simp only [lvl] at hrv
            omega
        have hkeep := ihS hner hsnglr
        have hne2 : insert_sub r k ≠ nil := ne_nil_of_lvl_pos (by omega)
        rcases invar_rightOf_cases ihI hne2 with hA | hB
        · have hsp : split (node l x v (insert_sub r k)) =
              node l x v (insert_sub r k) := split_skip (by omega)
          rw [hsp]
          have hinv : invar (node l x v (insert_sub r k)) = true := by
            rw [invar_node_iff]
            exact ⟨hil, ihI, hlv, Or.inr ⟨by omega, by omega⟩⟩
          exact ⟨hinv, Or.inl rfl, fun _ _ => rfl⟩
        · cases hc2 : insert_sub r k with
          | nil =>
            rw [hc2] at hkeep
            rw [lvl_nil] at hkeep
            exfalso
            omega
          | node rl ry vy rr =>
            rw [hc2] at ihI hkeep hB
            rw [lvl_node] at hkeep
            rw [rightOf_node, lvl_node] at hB
            have hvy : vy = v := by omega
            have hsp := @split_rotate l x v rl ry vy rr (by omega)
            rw [hsp]
            rw [invar_node_iff] at ihI
            obtain ⟨hirl, hirr, hrl1, hrrc⟩ := ihI
            have hinv : invar (node (node l x v rl) ry (vy + 1) rr) = true := by
              rw [invar_node_iff]
              refine ⟨?_, hirr, ?_, Or.inl (by omega)⟩
              · rw [invar_node_iff]
                exact ⟨hil, hirl, hlv, Or.inl (by omega)⟩
              · rw [lvl_node]
                omega
            refine ⟨hinv, Or.inr ⟨?_, ?_⟩, ?_⟩
            · rw [lvl_node, lvl_node]
              omega
            · rw [sngl_node]
              simp only [decide_eq_true_eq]
              omega
            · intro _ hst
              rw [sngl_node] at hst
              simp only [decide_eq_true_eq] at hst
              omega
    · by_cases hlt : k < x
      · obtain ⟨ihI, ihL, ihS⟩ := ihl k hil
        simp only [insert_sub, if_neg hgt, if_pos hlt, rebalance_on_insert]
        rcases ihL with hkeep | ⟨hraise, hsngl⟩
        · have hskew : skew (node (insert_sub l k) x v r) =
              node (insert_sub l k) x v r := skew_skip (by omega)
          rw [hskew]
          have hrr_le := lvl_rightOf_le_of_invar hir
          have hsp : split (node (insert_sub l k) x v r) =
              node (insert_sub l k) x v r := split_skip (by
            rcases hrc with h | h
            · omega
            · omega)
          rw [hsp]
          have hinv : invar (node (insert_sub l k) x v r) = true := by
            rw [invar_node_iff]
            exact ⟨ihI, hir, by omega, hrc⟩
          exact ⟨hinv, Or.inl rfl, fun _ _ => rfl⟩
        · cases hc2 : insert_sub l k with
          | nil =>
            rw [hc2] at hraise
            rw [lvl_nil] at hraise
            exfalso
            omega
          | node la ly vy lb =>
            rw [hc2] at ihI hraise hsngl
            rw [lvl_node] at hraise
            have hvy : vy = v := by omega
            rw [skew_rotate hvy.symm]
            rw [invar_node_iff] at ihI
            obtain ⟨hila, hilb, hla1, hlbc⟩ := ihI
            simp only [sngl_node, decide_eq_true_eq] at hsngl
            have hlb : lvl lb + 1 = vy := by
              rcases hlbc with h | h
              · exact h
              · omega
            rcases hrc with hca | hcb
            · have hsp : split (node la ly vy (node lb x v r)) =
                  node la ly vy (node lb x v r) := split_skip (by
                rw [rightOf_node]
                omega)
              rw [hsp]
              have hinv : invar (node la ly vy (node lb x v r)) = true := by
                rw [invar_node_iff]
                refine ⟨hila, ?_, by omega, Or.inr ⟨?_, ?_⟩⟩
                · rw [invar_node_iff]
                  exact ⟨hilb, hir, by omega, Or.inl hca⟩
                · rw [lvl_node]
                  omega
                · rw [rightOf_node]
                  omega
              refine ⟨hinv, Or.inl ?_, fun _ _ => ?_⟩
              · rw [lvl_node, lvl_node]
                omega
              · rw [lvl_node, lvl_node]
                omega
            · obtain ⟨hrv, hrrv⟩ := hcb
              have hsp := @split_rotate la ly vy lb x v r (by omega)
              rw [hsp]
              have hinv : invar (node (node la ly vy lb) x (v + 1) r) = true := by
                rw [invar_node_iff]
                refine ⟨?_, hir, ?_, Or.inl (by omega)⟩
                · rw [invar_node_iff]
                  exact ⟨hila, hilb, hla1, Or.inl hlb⟩
                · rw [lvl_node]
                  omega
              refine ⟨hinv, Or.inr ⟨?_, ?_⟩, ?_⟩
              · rw [lvl_node, lvl_node]
              · rw [sngl_node]
                simp only [decide_eq_true_eq]
                omega
              · intro _ hst
                rw [sngl_node] at hst
                simp only [decide_eq_true_eq] at hst
                omega
      · have he : insert_sub (node l x v r) k = node l x v r := by
          simp only [insert_sub, if_neg hgt, if_neg hlt]
        rw [he]
        exact ⟨hi0, Or.inl rfl, fun _ _ => rfl⟩

theorem setRight_node (A : AATree) (kk vv : Int) (B C : AATree) :
    setRight (node A kk vv B) C = node A kk vv C := rfl

theorem step2_node (A : AATree) (kk vv : Int) (B : AATree) :
    step2 (node A kk vv B) = node A kk vv (skew B) := rfl

theorem step3_node (A : AATree) (kk vv : Int) (B : AATree) :
    step3 (node A kk vv B) = node A kk vv (setRight B (skew (rightOf B))) := rfl

theorem step45_def (u : AATree) :
    step45 u = setRight (split u) (split (rightOf (split u))) := rfl

theorem invar_rightOf {t : AATree} (h : invar t = true) :
    invar (rightOf t) = true := by
  cases t with
  | nil => exact h
  | node l x v r => exact (invar_node_iff.mp h).2.1

/-- The level fix-up of rebalance_on_remove applied when only the right
subtree may have lost a level: the result is a valid AA subtree whose level
is the original level or one less, and which has no red right child when the
level is kept and the right subtree is low. -/
theorem adjust_right {l : AATree} {k v : Int} {r2 : AATree}
    (hil : invar l = true) (hir : invar r2 = true) (hlv : lvl l + 1 = v)
    (hr2 : lvl r2 + 1 = v ∨ lvl r2 + 2 = v ∨
      (lvl r2 = v ∧ lvl (rightOf r2) + 1 = v)) :
    invar (rebalance_on_remove (node l k v r2)) = true ∧
      (lvl (rebalance_on_remove (node l k v r2)) = v ∨
        lvl (rebalance_on_remove (node l k v r2)) + 1 = v) ∧
      (lvl (rebalance_on_remove (node l k v r2)) = v → lvl r2 < v →
        sngl (rebalance_on_remove (node l k v r2)) = true) := by
  have hl0 := lvl_nonneg_of_invar hil
  have hr0 := lvl_nonneg_of_invar hir
  rcases hr2 with hc1 | hc2 | hc3
  · rw [rebalance_on_remove_skip (by omega)]
    refine ⟨invar_node_iff.mpr ⟨hil, hir, hlv, Or.inl hc1⟩, Or.inl rfl, ?_⟩
    intro _ hlow
    rw [sngl_node]
    simp only [decide_eq_true_eq]
    omega
  · have hrr2le := lvl_rightOf_le_of_invar hir
    cases l with
    | nil =>
      exfalso
      rw [lvl_nil] at hlv
      omega
    | node a p vp b =>
      rw [lvl_node] at hlv hl0
      rw [invar_node_iff] at hil
      obtain ⟨hia, hib, ha1, hbc⟩ := hil
      have hfire : lvl (node a p vp b) < v - 1 ∨ lvl r2 < v - 1 :=
        Or.inr (by omega)
      rw [rebalance_on_remove_fire hfire, if_neg (by omega : ¬ lvl r2 > v - 1)]
      rw [skew_rotate (by omega : (v - 1 : Int) = vp)]
      rw [step2_node]
      rcases hbc with hb1 | hb2
      · rw [skew_skip (by omega : ¬ (v - 1 : Int) = lvl b)]
        rw [step3_node, rightOf_node, skew_id_of_invar hir, setRight_node]
        rw [step45_def]
        rw [split_skip (by rw [rightOf_node]; omega :
          ¬ vp = lvl (rightOf (node b k (v - 1) r2)))]
        rw [rightOf_node]
        rw [split_skip (by omega : ¬ (v - 1 : Int) = lvl (rightOf r2))]
        rw [setRight_node]
        refine ⟨?_, Or.inr (by rw [lvl_node]; omega), ?_⟩
        · refine invar_node_iff.mpr ⟨hia, ?_, by omega, Or.inr ⟨?_, ?_⟩⟩
          · exact invar_node_iff.mpr ⟨hib, hir, by omega, Or.inl (by omega)⟩
          · rw [lvl_node]
            omega
          · rw [rightOf_node]
            omega
        · intro hcon _
          exfalso
          rw [lvl_node] at hcon
          omega
      · obtain ⟨hbv, hbrr⟩ := hb2
        cases b with
        | nil =>
          exfalso
          rw [lvl_nil] at hbv
          omega
        | node b1 q vq b2 =>
          rw [lvl_node] at hbv
          rw [rightOf_node] at hbrr
          rw [invar_node_iff] at hib
          obtain ⟨hib1, hib2, hb11, hb2c⟩ := hib
          rw [skew_rotate (by omega : (v - 1 : Int) = vq)]
          rw [step3_node, rightOf_node]
          rw [skew_skip (by omega : ¬ (v - 1 : Int) = lvl b2)]
          rw [setRight_node, step45_def]
          rw [split_rotate (by rw [lvl_node]; omega :
            vp = lvl (node b2 k (v - 1) r2))]
          rw [rightOf_node]
          rw [split_skip (by omega : ¬ (v - 1 : Int) = lvl (rightOf r2))]
          rw [setRight_node]
          refine ⟨?_, Or.inl (by rw [lvl_node]; omega), ?_⟩
          · refine invar_node_iff.mpr ⟨?_, ?_, ?_, Or.inl ?_⟩
            · exact invar_node_iff.mpr ⟨hia, hib1, ha1, Or.inl (by omega)⟩
            · exact invar_node_iff.mpr ⟨hib2, hir, by omega, Or.inl (by omega)⟩
            · rw [lvl_node]
              omega
            · rw [lvl_node]
              omega
          · intro _ _
            rw [sngl_node, lvl_node]
            simp only [decide_eq_true_eq]
            omega
  · obtain ⟨hrv, hrr⟩ := hc3
    rw [rebalance_on_remove_skip (by omega)]
    refine ⟨invar_node_iff.mpr ⟨hil, hir, hlv, Or.inr ⟨hrv, hrr⟩⟩,
      Or.inl rfl, ?_⟩
    intro _ hlow
    exfalso
    omega

theorem setLevel_node (A : AATree) (kk vv : Int) (B : AATree) (w : Int) :
    setLevel (node A kk vv B) w = node A kk w B := rfl

theorem rightOf_nil : rightOf (nil : AATree) = nil := rfl

theorem rebalance_on_remove_nil : rebalance_on_remove (nil : AATree) = nil := rfl

theorem setRight_rightOf_self (t : AATree) : setRight t (rightOf t) = t := by
  cases t <;> rfl

/-- The level fix-up of rebalance_on_remove applied when only the left
subtree may have lost a level. -/
theorem adjust_left {l2 : AATree} {k v : Int} {r : AATree}
    (hil : invar l2 = true) (hir : invar r = true)
    (hl2 : lvl l2 + 1 = v ∨ lvl l2 + 2 = v)
    (hrc : lvl r + 1 = v ∨ (lvl r = v ∧ lvl (rightOf r) + 1 = v)) :
    invar (rebalance_on_remove (node l2 k v r)) = true ∧
      (lvl (rebalance_on_remove (node l2 k v r)) = v ∨
        lvl (rebalance_on_remove (node l2 k v r)) + 1 = v) ∧
      (lvl (rebalance_on_remove (node l2 k v r)) = v → lvl r < v →
        sngl (rebalance_on_remove (node l2 k v r)) = true) := by
  have hl0 := lvl_nonneg_of_invar hil
  have hr0 := lvl_nonneg_of_invar hir
  rcases hl2 with hk1 | hk2
  · rw [rebalance_on_remove_skip (by rcases hrc with h | h <;> omega)]
    refine ⟨invar_node_iff.mpr ⟨hil, hir, hk1, hrc⟩, Or.inl rfl, ?_⟩
    intro _ hlow
    rw [sngl_node]
    simp only [decide_eq_true_eq]
    omega
  · have hfire : lvl l2 < v - 1 ∨ lvl r < v - 1 := Or.inl (by omega)
    rw [rebalance_on_remove_fire hfire]
    rcases hrc with hr1 | ⟨hrv, hrr⟩
    · rw [if_neg (by omega : ¬ lvl r > v - 1)]
      rw [skew_skip (by omega : ¬ (v - 1 : Int) = lvl l2)]
      rw [step2_node, skew_id_of_invar hir, step3_node]
      rw [skew_id_of_invar (invar_rightOf hir), setRight_rightOf_self]
      rw [step45_def]
      have hr_real : r ≠ nil := ne_nil_of_lvl_pos (by omega)
      rcases invar_rightOf_cases hir hr_real with hA | hB
      · rw [split_skip (by omega : ¬ (v - 1 : Int) = lvl (rightOf r))]
        rw [rightOf_node, split_id_of_invar hir, setRight_node]
        refine ⟨?_, Or.inr (by rw [lvl_node]; omega), ?_⟩
        · exact invar_node_iff.mpr
            ⟨hil, hir, by omega, Or.inr ⟨by omega, by omega⟩⟩
        · intro hcon _
          exfalso
          rw [lvl_node] at hcon
          omega
      · cases r with
        | nil => exact absurd rfl hr_real
        | node rl ry vr rr =>
          rw [lvl_node] at hr1
          rw [rightOf_node, lvl_node] at hB
          rw [invar_node_iff] at hir
          obtain ⟨hirl, hirr, hrl1, hrrc⟩ := hir
          rw [split_rotate (by omega : (v - 1 : Int) = lvl rr)]
          rw [rightOf_node, split_id_of_invar hirr, setRight_node]
          refine ⟨?_, Or.inl (by rw [lvl_node]; omega), ?_⟩
          · refine invar_node_iff.mpr ⟨?_, hirr, ?_, Or.inl (by omega)⟩
            · exact invar_node_iff.mpr ⟨hil, hirl, by omega, Or.inl (by omega)⟩
            · rw [lvl_node]
              omega
          · intro _ _
            rw [sngl_node]
            simp only [decide_eq_true_eq]
            omega
    · have hr_real : r ≠ nil := ne_nil_of_lvl_pos (by omega)
      cases r with
      | nil => exact absurd rfl hr_real
      | node rl ry vr rr =>
        rw [lvl_node] at hrv
        rw [rightOf_node] at hrr
        rw [invar_node_iff] at hir
        obtain ⟨hirl, hirr, hrl1, hrrc⟩ := hir
        rw [if_pos (by rw [lvl_node]; omega :
          lvl (node rl ry vr rr) > v - 1)]
        rw [setLevel_node]
        rw [skew_skip (by omega : ¬ (v - 1 : Int) = lvl l2)]
        rw [step2_node]
        have hrl_real : rl ≠ nil := ne_nil_of_lvl_pos (by omega)
        cases rl with
        | nil => exact absurd rfl hrl_real
        | node rla rp vrp rlb =>
          rw [lvl_node] at hrl1
          rw [invar_node_iff] at hirl
          obtain ⟨hirla, hirlb, hrla1, hrlbc⟩ := hirl
          rw [skew_rotate (by omega : (v - 1 : Int) = vrp)]
          rw [step3_node, rightOf_node]
          rcases hrlbc with hlb1 | ⟨hlbv, hlbrr⟩
          · rw [skew_skip (by omega : ¬ (v - 1 : Int) = lvl rlb),
              setRight_node]
            rw [step45_def]
            rw [split_rotate (by rw [lvl_node] :
              (v - 1 : Int) = lvl (node rlb ry (v - 1) rr))]
            rw [rightOf_node]
            have hrr_real : rr ≠ nil := ne_nil_of_lvl_pos (by omega)
            rcases invar_rightOf_cases hirr hrr_real with hA2 | hB2
            · rw [split_skip (by omega :
                ¬ (v - 1 : Int) = lvl (rightOf rr))]
              rw [setRight_node]
              refine ⟨?_, Or.inl (by rw [lvl_node]; omega), ?_⟩
              · refine invar_node_iff.mpr ⟨?_, ?_, ?_, Or.inl ?_⟩
                · exact invar_node_iff.mpr
                    ⟨hil, hirla, by omega, Or.inl (by omega)⟩
                · refine invar_node_iff.mpr
                    ⟨hirlb, hirr, by omega, Or.inr ⟨by omega, by omega⟩⟩
                · rw [lvl_node]
                  omega
                · rw [lvl_node]
                  omega
              · intro _ hcon
                exfalso
                rw [lvl_node] at hcon
                omega
            · cases rr with
              | nil => exact absurd rfl hrr_real
              | node rrl rrk vrr rrr =>
                rw [lvl_node] at hrr
                rw [rightOf_node, lvl_node] at hB2
                rw [invar_node_iff] at hirr
                obtain ⟨hirrl, hirrr, hrrl1, hrrrc⟩ := hirr
                rw [split_rotate (by omega : (v - 1 : Int) = lvl rrr)]
                rw [setRight_node]
                refine ⟨?_, Or.inl (by rw [lvl_node]; omega), ?_⟩
                · refine invar_node_iff.mpr
                    ⟨?_, ?_, ?_, Or.inr ⟨?_, ?_⟩⟩
                  · exact invar_node_iff.mpr
                      ⟨hil, hirla, by omega, Or.inl (by omega)⟩
                  · refine invar_node_iff.mpr ⟨?_, hirrr, ?_, Or.inl ?_⟩
                    · exact invar_node_iff.mpr
                        ⟨hirlb, hirrl, by omega, Or.inl (by omega)⟩
                    · rw [lvl_node]
                      omega
                    · omega
                  · rw [lvl_node]
                    omega
                  · rw [lvl_node]
                    omega
                  · rw [rightOf_node]
                    omega
                · intro _ hcon
                  exfalso
                  rw [lvl_node] at hcon
                  omega
          · cases rlb with
            | nil =>
              exfalso
              rw [lvl_nil] at hlbv
              omega
            | node rb1 rq vrq rb2 =>
              rw [lvl_node] at hlbv
              rw [rightOf_node] at hlbrr
              rw [invar_node_iff] at hirlb
              obtain ⟨hirb1, hirb2, hrb11, hrb2c⟩ := hirlb
              rw [skew_rotate (by omega : (v - 1 : Int) = vrq),
                setRight_node]
              rw [step45_def]
              rw [split_rotate (by rw [lvl_node]; omega :
                (v - 1 : Int) = lvl (node rb1 rq vrq
                  (node rb2 ry (v - 1) rr)))]
              rw [rightOf_node]
              rw [split_rotate (by omega : vrq = lvl rr)]
              rw [setRight_node]
              refine ⟨?_, Or.inl (by rw [lvl_node]; omega), ?_⟩
              · refine invar_node_iff.mpr ⟨?_, ?_, ?_, Or.inr ⟨?_, ?_⟩⟩
                · exact invar_node_iff.mpr
                    ⟨hil, hirla, by omega, Or.inl (by omega)⟩
                · refine invar_node_iff.mpr ⟨?_, hirr, ?_, Or.inl ?_⟩
                  · exact invar_node_iff.mpr
                      ⟨hirb1, hirb2, hrb11, Or.inl (by omega)⟩
                  · rw [lvl_node]
                    omega
                  · omega
                · rw [lvl_node]
                  omega
                · rw [lvl_node]
                  omega
                · rw [rightOf_node]
                  omega
              · intro _ hcon
                exfalso
                rw [lvl_node] at hcon
                omega

theorem steal_leftmost_post : ∀ {t : AATree}, t ≠ nil → invar t = true →
    invar (steal_leftmost t).1 = true ∧
      (lvl (steal_leftmost t).1 = lvl t ∨
        lvl (steal_leftmost t).1 + 1 = lvl t) ∧
      (lvl (steal_leftmost t).1 = lvl t → sngl t = true →
        sngl (steal_leftmost t).1 = true) := by
  intro t
  induction t with
  | nil => intro h; exact absurd rfl h
  | node l kk v r ihl ihr =>
    intro _ hi
    rw [invar_node_iff] at hi
    obtain ⟨hil, hir, hlv, hrc⟩ := hi
    cases l with
    | nil =>
      rw [lvl_nil] at hlv
      simp only [steal_leftmost]
      refine ⟨hir, ?_, ?_⟩
      · rw [lvl_node]
        rcases hrc with h | h
        · right
          omega
        · left
          omega
      · intro hkeep hsng
        rw [lvl_node] at hkeep
        rw [sngl_node] at hsng
        simp only [decide_eq_true_eq] at hsng
        exfalso
        omega
    | node a x vx b =>
      have hne : (node a x vx b : AATree) ≠ nil := by intro hc; cases hc
      obtain ⟨ihI, ihL, ihS⟩ := ihl hne hil
      have hadj := adjust_left (k := kk) (v := v) (r := r) ihI hir (by
        rcases ihL with h | h
        · left
          omega
        · right
          omega) hrc
      simp only [steal_leftmost]
      refine ⟨hadj.1, ?_, ?_⟩
      · rw [lvl_node]
        exact hadj.2.1
      · intro hkeep hsng
        rw [lvl_node] at hkeep
        rw [sngl_node] at hsng
        simp only [decide_eq_true_eq] at hsng
        exact hadj.2.2 hkeep hsng

theorem drop_this_node_post {l : AATree} {kk v : Int} {r : AATree}
    (hi : invar (node l kk v r) = true) :
    invar (rebalance_on_remove (drop_this_node (node l kk v r))) = true ∧
      (lvl (rebalance_on_remove (drop_this_node (node l kk v r))) = v ∨
        lvl (rebalance_on_remove (drop_this_node (node l kk v r))) + 1 = v) ∧
      (lvl (rebalance_on_remove (drop_this_node (node l kk v r))) = v →
        lvl r < v →
        sngl (rebalance_on_remove (drop_this_node (node l kk v r))) = true) := by
  rw [invar_node_iff] at hi
  obtain ⟨hil, hir, hlv, hrc⟩ := hi
  have hl0 := lvl_nonneg_of_invar hil
  have hr0 := lvl_nonneg_of_invar hir
  cases l with
  | nil =>
    rw [lvl_nil] at hlv
    simp only [drop_this_node]
    cases r with
    | nil =>
      refine ⟨rfl, Or.inr (by rw [rebalance_on_remove_nil, lvl_nil]; omega), ?_⟩
      intro hcon _
      exfalso
      rw [rebalance_on_remove_nil, lvl_nil] at hcon
      omega
    | node rl rk vr rr =>
      have hirl := lvl_nonneg_of_invar (invar_node_iff.mp hir).1
      have hirr := lvl_nonneg_of_invar (invar_node_iff.mp hir).2.1
      have hvr : lvl (node rl rk vr rr) = v := by
        rw [lvl_node]
        rw [lvl_node] at hrc
        rcases hrc with h | h
        · -- vr + 1 = v = 1 would give vr = 0 for a real node
          exfalso
          have := lvl_pos_of_invar hir (by intro hc; cases hc)
          rw [lvl_node] at this
          omega
        · omega
      rw [rebalance_on_remove_skip (by
        have h1 := (invar_node_iff.mp hir).2.2.1
        rw [lvl_node] at hvr
        omega)]
      refine ⟨hir, Or.inl hvr, ?_⟩
      intro _ hcon
      exfalso
      rw [lvl_node] at hcon hvr
      omega
  | node a ax av ab =>
    cases r with
    | nil =>
      exfalso
      have hpos := lvl_pos_of_invar hil (by intro hc; cases hc)
      rw [lvl_nil] at hrc
      rcases hrc with h | ⟨h1, h2⟩
      · omega
      · omega
    | node rl rk vr rr =>
      have hner : (node rl rk vr rr : AATree) ≠ nil := by intro hc; cases hc
      obtain ⟨stI, stL, stS⟩ := steal_leftmost_post hner hir
      simp only [drop_this_node]
      have hadj := @adjust_right
        (node a ax av ab) (steal_leftmost (node rl rk vr rr)).2
        v (steal_leftmost (node rl rk vr rr)).1
        hil stI hlv (by
        rw [lvl_node] at stL
        rcases hrc with h | ⟨h1, h2⟩
        · rw [lvl_node] at h
          rcases stL with h3 | h3
          · left
            omega
          · right
            left
            omega
        · rw [lvl_node] at h1
          rcases stL with h3 | h3
          · right
            right
            constructor
            · omega
            · have hsng : sngl (node rl rk vr rr) = true := by
                rw [sngl_node]
                simp only [decide_eq_true_eq]
                rw [rightOf_node] at h2
                have := lvl_rightOf_le_of_invar hir
                rw [rightOf_node, lvl_node] at this
                omega
              have hs1 := stS (by rw [lvl_node]; omega) hsng
              have := rightOf_lvl_of_sngl stI hs1 (ne_nil_of_lvl_pos (by omega))
              omega
          · left
            omega)
      refine ⟨hadj.1, hadj.2.1, ?_⟩
      intro hkeep hcon
      refine hadj.2.2 hkeep ?_
      rw [lvl_node] at hcon stL
      rcases hrc with h | ⟨h1, h2⟩
      · rw [lvl_node] at h
        omega
      · rw [lvl_node] at h1
        omega

theorem remove_post : ∀ {t : AATree} (k : Int), invar t = true →
    invar (remove_sub t k) = true ∧
      (lvl (remove_sub t k) = lvl t ∨ lvl (remove_sub t k) + 1 = lvl t) ∧
      (lvl (remove_sub t k) = lvl t → sngl t = true →
        sngl (remove_sub t k) = true) := by
  intro t
  induction t with
  | nil =>
    intro k _
    exact ⟨rfl, Or.inl rfl, fun _ h => h⟩
  | node l x v r ihl ihr =>
    intro k hi
    have hi0 := hi
    rw [invar_node_iff] at hi
    obtain ⟨hil, hir, hlv, hrc⟩ := hi
    have hl0 := lvl_nonneg_of_invar hil
    have hr0 := lvl_nonneg_of_invar hir
    by_cases hgt : k > x
    · obtain ⟨ihI, ihL, ihS⟩ := ihr k hir
      simp only [remove_sub, if_pos hgt]
      have hadj := @adjust_right l x v
        (remove_sub r k) hil ihI hlv (by
        rcases hrc with h | ⟨h1, h2⟩
        · rcases ihL with h3 | h3
          · left
            omega
          · right
            left
            omega
        · rcases ihL with h3 | h3
          · right
            right
            constructor
            · omega
            · have hner : r ≠ nil := ne_nil_of_lvl_pos (by omega)
              have hsng : sngl r = true := by
                cases r with
                | nil => exact absurd rfl hner
                | node rl rk vr rr =>
                  rw [sngl_node]
                  simp only [decide_eq_true_eq]
                  rw [rightOf_node] at h2
                  rw [lvl_node] at h1
                  have := lvl_rightOf_le_of_invar hir
                  rw [rightOf_node, lvl_node] at this
                  omega
              have hs1 := ihS (by omega) hsng
              have := rightOf_lvl_of_sngl ihI hs1
                (ne_nil_of_lvl_pos (by omega))
              omega
          · left
            omega)
      refine ⟨hadj.1, ?_, ?_⟩
      · rw [lvl_node]
        exact hadj.2.1
      · intro hkeep hsng
        rw [lvl_node] at hkeep
        rw [sngl_node] at hsng
        simp only [decide_eq_true_eq] at hsng
        refine hadj.2.2 hkeep ?_
        rcases hrc with h | ⟨h1, h2⟩
        · rcases ihL with h3 | h3 <;> omega
        · omega
    · by_cases hlt : k < x
      · obtain ⟨ihI, ihL, ihS⟩ := ihl k hil
        simp only [remove_sub, if_neg hgt, if_pos hlt]
        have hadj := adjust_left (k := x) (v := v) (r := r) ihI hir (by
          rcases ihL with h | h
          · left
            omega
          · right
            omega) hrc
        refine ⟨hadj.1, ?_, ?_⟩
        · rw [lvl_node]
          exact hadj.2.1
        · intro hkeep hsng
          rw [lvl_node] at hkeep
          rw [sngl_node] at hsng
          simp only [decide_eq_true_eq] at hsng
          exact hadj.2.2 hkeep hsng
      · simp only [remove_sub, if_neg hgt, if_neg hlt]
        have hdp := @drop_this_node_post l x v r hi0
        refine ⟨hdp.1, ?_, ?_⟩
        · rw [lvl_node]
          exact hdp.2.1
        · intro hkeep hsng
          rw [lvl_node] at hkeep
          rw [sngl_node] at hsng
          simp only [decide_eq_true_eq] at hsng
          exact hdp.2.2 hkeep hsng

theorem applyOp_invar {t : AATree} (op : TreeOp) (hi : invar t = true) :
    invar (applyOp t op) = true := by
  cases op with
  | insert k => exact (insert_post k hi).1
  | remove k => exact (remove_post k hi).1

theorem buildTree_invar (ops : List TreeOp) :
    invar (buildTree ops) = true := by
  suffices h : ∀ (t : AATree), invar t = true →
      invar (ops.foldl applyOp t) = true by
    exact h nil rfl
  induction ops with
  | nil => intro t hi; exact hi
  | cons op rest ih =>
    intro t hi
    exact ih _ (applyOp_invar op hi)

theorem levelsChecker_of_invar : ∀ {t : AATree}, invar t = true →
    levelsChecker t = true
  | nil, _ => rfl
  | node l x v r, h => by
    rw [invar_node_iff] at h
    obtain ⟨hil, hir, hlv, hrc⟩ := h
    have h1 := levelsChecker_of_invar hil
    have h2 := levelsChecker_of_invar hir
    have hrr := lvl_rightOf_le_of_invar hir
    have hr0 := lvl_nonneg_of_invar hir
    simp only [levelsChecker, Bool.and_eq_true, Bool.or_eq_true,
      decide_eq_true_eq, Bool.not_eq_true', decide_eq_false_iff_not]
    refine ⟨⟨⟨⟨by omega, ?_⟩, ?_⟩, h1⟩, h2⟩
    · rcases hrc with h | h
      · right
        omega
      · left
        omega
    · rcases hrc with h | h
      · omega
      · omega

/-- A pointer in the heap model of the C code; 0 stands for NIL, the
address of the shared sentinel `_nil`. -/
abbrev Ptr := Nat

/-- The pointer and level fields of struct AANode (aatree.h) that skew
reads and writes; skew does not touch the state field. -/
structure HCell where
  left : Ptr
  right : Ptr
  parent : Ptr
  level : Int
deriving DecidableEq, Repr

/-- The heap: the cell stored at every pointer; index 0 is the sentinel. -/
def Heap := Ptr → HCell

/-- A store of one whole cell at a pointer. -/
def hset (h : Heap) (p : Ptr) (c : HCell) : Heap :=
  fun q => if q = p then c else h q

/-- skew from src/aatree.c lines 250-270 in the pointer model, mirroring
the C statement order: load y = x->left and the two levels; if
x_level == y_level and x != NIL, store x->left = y->right, then (if
y->right != NIL) y->right->parent = x, then y->right = x, then read
x->parent, store y->parent = it and x->parent = y, and return y;
otherwise return x with the heap unchanged. -/
def skewH (h : Heap) (x : Ptr) : Heap × Ptr :=
  let y := (h x).left
  let x_level := (h x).level
  let y_level := (h y).level
  if x_level = y_level ∧ x ≠ 0 then
    let y_right := (h y).right
    let h1 := hset h x { h x with left := y_right }
    let h2 := if y_right ≠ 0 then
        hset h1 y_right { h1 y_right with parent := x } else h1
    let h3 := hset h2 y { h2 y with right := x }
    let x_parent := (h3 x).parent
    let h4 := hset h3 y { h3 y with parent := x_parent }
    let h5 := hset h4 x { h4 x with parent := y }
    (h5, y)
  else (h, x)

theorem hset_same (h : Heap) (p : Ptr) (c : HCell) : hset h p c p = c := by
  simp [hset]

theorem hset_other (h : Heap) {p q : Ptr} (c : HCell) (hne : q ≠ p) :
    hset h p c q = h q := by
  simp [hset, hne]

/-- skewH in the rotation case: with x not the sentinel, x's level equal
to its left child y's level, and x, y and y's right child yr pairwise
distinct cells, the result is rooted at y and the final heap differs from
the initial one in exactly these fields: x's left child is yr and x's
parent is y; y's right child is x and y's parent is x's old parent; when
yr is a real node its parent is x; every other cell is untouched. -/
theorem skewH_rotation {h : Heap} {x y yr : Ptr}
    (hy : (h x).left = y) (hyr : (h y).right = yr)
    (hx : x ≠ 0) (hlev : (h x).level = (h y).level)
    (hxy : x ≠ y) (hxyr : x ≠ yr) (hyyr : y ≠ yr) :
    (skewH h x).2 = y ∧
      ∀ p : Ptr, (skewH h x).1 p =
        if p = x then { h x with left := yr, parent := y }
        else if p = y then { h y with right := x, parent := (h x).parent }
        else if p = yr ∧ yr ≠ 0 then { h yr with parent := x }
        else h p := by
  have hyx : y ≠ x := fun hc => hxy hc.symm
  have hyry : yr ≠ y := fun hc => hyyr hc.symm
  have hyrx : yr ≠ x := fun hc => hxyr hc.symm
  constructor
  · simp [skewH, hy, hyr, hlev, hx]
  · intro p
    by_cases h0 : yr = 0
    · by_cases hpx : p = x
      · subst hpx
        simp [skewH, hset, hy, hyr, hlev, hx, hxy, hxyr, hyx, hyrx, h0]
      · by_cases hpy : p = y
        · subst hpy
          simp [skewH, hset, hy, hyr, hlev, hx, hxy, hyx, hyry, h0, hpx]
        · by_cases hpyr : p = yr
          · subst hpyr
            subst h0
            simp [skewH, hset, hy, hyr, hlev, hx, hpx, hpy]
          · simp [skewH, hset, hy, hyr, hlev, hx, hpx, hpy, hpyr, h0]
    · by_cases hpx : p = x
      · subst hpx
        simp [skewH, hset, hy, hyr, hlev, hx, hxy, hxyr, hyx, hyyr, hyry,
          hyrx, h0]
      · by_cases hpy : p = y
        · subst hpy
          simp [skewH, hset, hy, hyr, hlev, hx, hxy, hxyr, hyx, hyyr, hyry,
            hyrx, h0, hpx]
        · by_cases hpyr : p = yr
          · subst hpyr
            simp [skewH, hset, hy, hyr, hlev, hx, hxy, hxyr, hyx, hyyr,
              hyry, hyrx, hpx, hpy, h0]
          · simp [skewH, hset, hy, hyr, hlev, hx, hpx, hpy, hpyr, h0]

/-- skewH in the identity case: when the level condition fails or x is the
sentinel, the heap and the root are returned unchanged. -/
theorem skewH_id {h : Heap} {x : Ptr}
    (hcond : ¬ ((h x).level = (h ((h x).left)).level ∧ x ≠ 0)) :
    skewH h x = (h, x) := by
  unfold skewH
  rw [if_neg hcond]

/-- enum AANodeState from aatree.h: Open (idle), Insert, Balancing. -/
inductive AANodeState where
  | Open
  | Insert
  | Balancing
deriving DecidableEq, Repr

/-- The atomic state field of every node, as a map from pointers. -/
def StateMap := Ptr → AANodeState

/-- A store to one node's state field. -/
def supdate (σ : StateMap) (p : Ptr) (s : AANodeState) : StateMap :=
  fun q => if q = p then s else σ q

/-- atomic_rebalancing_state_compare_exchange_weak from src/aatree.c lines
119-127: CAS the node's state to Balancing, first with the caller-supplied
expected state state_from, then with expected Open; so the claim succeeds
exactly when the current state is state_from or Open, and a failed claim
leaves the state unchanged. -/
def cas_to_balancing (σ : StateMap) (p : Ptr) (state_from : AANodeState) :
    Bool × StateMap :=
  if σ p = state_from ∨ σ p = AANodeState.Open then
    (true, supdate σ p AANodeState.Balancing)
  else (false, σ)

/-- rebalancing_release / the release_and_fail loop of src/aatree.c lines
224-239: set every node in the acquired array back to Open. -/
def release_all (σ : StateMap) (acc : List Ptr) : StateMap :=
  acc.foldl (fun σ2 p => supdate σ2 p AANodeState.Open) σ

/-- The per-candidate claim sequence of rebalancing_acquire (src/aatree.c
lines 167-219): each candidate in order is skipped when it is NIL or
already acquired, otherwise claimed by CAS; a failed CAS releases every
node acquired so far and fails the whole attempt. -/
def acquire_list (state_from : AANodeState) :
    StateMap → List Ptr → List Ptr → Bool × StateMap × List Ptr
  | σ, acc, [] => (true, σ, acc)
  | σ, acc, c :: rest =>
    if c ≠ 0 ∧ c ∉ acc then
      match cas_to_balancing σ c state_from with
      | (true, σ2) => acquire_list state_from σ2 (acc ++ [c]) rest
      | (false, σ2) => (false, release_all σ2 acc, acc)
    else acquire_list state_from σ acc rest

/-- rebalancing_acquire from src/aatree.c lines 134-231: read the
neighborhood (parent, grandparent, children, and the grandchildren the
rotations touch, NIL when the respective child is NIL), claim x first
(failure of this first CAS returns false with nothing acquired), then
claim the remaining candidates in order.  Returns the success flag, the
final state map and the list of acquired nodes. -/
def rebalancing_acquire (h : Heap) (σ : StateMap) (x : Ptr)
    (state_from : AANodeState) : Bool × StateMap × List Ptr :=
  let x_parent := (h x).parent
  let x_parent_parent := (h ((h x).parent)).parent
  let x_left := (h x).left
  let x_right := (h x).right
  let x_left_right := if x_left ≠ 0 then (h x_left).right else 0
  let x_right_left := if x_right ≠ 0 then (h x_right).left else 0
  let x_right_right := if x_right ≠ 0 then (h x_right).right else 0
  match cas_to_balancing σ x state_from with
  | (false, σ2) => (false, σ2, [])
  | (true, σ2) =>
    acquire_list state_from σ2 [x]
      [x_parent, x_parent_parent, x_left, x_right,
        x_left_right, x_right_left, x_right_right]

theorem release_all_not_mem (σ : StateMap) :
    ∀ (acc : List Ptr) (p : Ptr), p ∉ acc → release_all σ acc p = σ p := by
  intro acc
  induction acc generalizing σ with
  | nil => intro p _; rfl
  | cons a rest ih =>
    intro p hp
    simp only [List.mem_cons, not_or] at hp
    show release_all (supdate σ a AANodeState.Open) rest p = σ p
    rw [ih _ p hp.2]
    simp [supdate, hp.1]

theorem release_all_mem (σ : StateMap) :
    ∀ (acc : List Ptr) (p : Ptr), p ∈ acc →
      release_all σ acc p = AANodeState.Open := by
  intro acc
  induction acc generalizing σ with
  | nil => intro p hp; simp at hp
  | cons a rest ih =>
    intro p hp
    show release_all (supdate σ a AANodeState.Open) rest p = AANodeState.Open
    by_cases hmem : p ∈ rest
    · exact ih _ p hmem
    · rcases List.mem_cons.mp hp with rfl | hp2
      · rw [release_all_not_mem _ _ _ hmem]
        simp [supdate]
      · exact absurd hp2 hmem

/-- The workhorse invariant of the claim loop: relative to the state map σ0
at the start of the attempt, assuming every node in acc was claimable and
is currently Balancing and every other node is untouched, the loop result
satisfies: every acquired node was Open or state_from in σ0; on success
all acquired nodes are Balancing; on failure all acquired nodes are Open;
nodes outside the acquired list are exactly as in σ0; and nothing outside
acc other than non-NIL candidates is ever acquired. -/
theorem acquire_list_spec (f : AANodeState) :
    ∀ (cands : List Ptr) (σ0 σc : StateMap) (acc : List Ptr),
    (∀ p ∈ acc, (σ0 p = AANodeState.Open ∨ σ0 p = f) ∧
      σc p = AANodeState.Balancing) →
    (∀ p, p ∉ acc → σc p = σ0 p) →
    (∀ p ∈ (acquire_list f σc acc cands).2.2,
      (σ0 p = AANodeState.Open ∨ σ0 p = f)) ∧
    ((acquire_list f σc acc cands).1 = true →
      ∀ p ∈ (acquire_list f σc acc cands).2.2,
        (acquire_list f σc acc cands).2.1 p = AANodeState.Balancing) ∧
    ((acquire_list f σc acc cands).1 = false →
      ∀ p ∈ (acquire_list f σc acc cands).2.2,
        (acquire_list f σc acc cands).2.1 p = AANodeState.Open) ∧
    (∀ p, p ∉ (acquire_list f σc acc cands).2.2 →
      (acquire_list f σc acc cands).2.1 p = σ0 p) ∧
    (∀ p ∈ (acquire_list f σc acc cands).2.2, p ∈ acc ∨ p ≠ 0) := by
  intro cands
  induction cands with
  | nil =>
    intro σ0 σc acc h1 h2
    have hstep : acquire_list f σc acc [] = (true, σc, acc) := rfl
    rw [hstep]
    refine ⟨fun p hp => (h1 p hp).1, fun _ p hp => (h1 p hp).2, ?_, h2,
      fun p hp => Or.inl hp⟩
    intro hc
    simp at hc
  | cons c rest ih =>
    intro σ0 σc acc h1 h2
    by_cases hguard : c ≠ 0 ∧ c ∉ acc
    · by_cases hcas : σc c = f ∨ σc c = AANodeState.Open
      · have hcaseq : cas_to_balancing σc c f =
            (true, supdate σc c AANodeState.Balancing) := by
          unfold cas_to_balancing
          rw [if_pos hcas]
        have hstep : acquire_list f σc acc (c :: rest) =
            acquire_list f (supdate σc c AANodeState.Balancing)
              (acc ++ [c]) rest := by
          simp only [acquire_list]
          rw [if_pos hguard, hcaseq]
        rw [hstep]
        have h1' : ∀ p ∈ acc ++ [c],
            (σ0 p = AANodeState.Open ∨ σ0 p = f) ∧
              supdate σc c AANodeState.Balancing p = AANodeState.Balancing := by
          intro p hp
          rcases List.mem_append.mp hp with hp2 | hp2
          · have hne : p ≠ c := fun hc2 => hguard.2 (hc2 ▸ hp2)
            refine ⟨(h1 p hp2).1, ?_⟩
            rw [supdate, if_neg hne]
            exact (h1 p hp2).2
          · rcases List.mem_cons.mp hp2 with rfl | hp3
            · have hpeq := h2 p hguard.2
              constructor
              · rcases hcas with h | h
                · right
                  rw [← hpeq]
                  exact h
                · left
                  rw [← hpeq]
                  exact h
              · rw [supdate, if_pos rfl]
            · simp at hp3
        have h2' : ∀ p, p ∉ acc ++ [c] →
            supdate σc c AANodeState.Balancing p = σ0 p := by
          intro p hp
          simp only [List.mem_append, List.mem_cons, not_or] at hp
          rw [supdate, if_neg (by simpa using hp.2)]
          exact h2 p hp.1
        obtain ⟨g1, g2, g3, g4, g5⟩ := ih σ0 _ _ h1' h2'
        refine ⟨g1, g2, g3, g4, ?_⟩
        intro p hp
        rcases g5 p hp with hin | hne
        · rcases List.mem_append.mp hin with hin2 | hin2
          · exact Or.inl hin2
          · rcases List.mem_cons.mp hin2 with rfl | hh
            · exact Or.inr hguard.1
            · simp at hh
        · exact Or.inr hne
      · have hcaseq : cas_to_balancing σc c f = (false, σc) := by
          unfold cas_to_balancing
          rw [if_neg hcas]
        have hstep : acquire_list f σc acc (c :: rest) =
            (false, release_all σc acc, acc) := by
          simp only [acquire_list]
          rw [if_pos hguard, hcaseq]
        rw [hstep]
        refine ⟨fun p hp => (h1 p hp).1, ?_, ?_, ?_, fun p hp => Or.inl hp⟩
        · intro hc
          simp at hc
        · intro _ p hp
          exact release_all_mem σc acc p hp
        · intro p hp
          show release_all σc acc p = σ0 p
          rw [release_all_not_mem σc acc p hp]
          exact h2 p hp
    · have hstep : acquire_list f σc acc (c :: rest) =
          acquire_list f σc acc rest := by
        simp only [acquire_list]
        rw [if_neg hguard]
      rw [hstep]
      exact ih σ0 σc acc h1 h2

/-- Full specification of one rebalancing_acquire attempt relative to the
state map at its start: every acquired node was Open or in the expected
state state_from; on success every acquired node is Balancing; on failure
every acquired node has been put back to Open; every node outside the
acquired list keeps its starting state; and only x itself or non-NIL nodes
are ever acquired. -/
theorem rebalancing_acquire_spec (h : Heap) (σ : StateMap) (x : Ptr)
    (f : AANodeState) :
    (∀ p ∈ (rebalancing_acquire h σ x f).2.2,
      (σ p = AANodeState.Open ∨ σ p = f)) ∧
    ((rebalancing_acquire h σ x f).1 = true →
      ∀ p ∈ (rebalancing_acquire h σ x f).2.2,
        (rebalancing_acquire h σ x f).2.1 p = AANodeState.Balancing) ∧
    ((rebalancing_acquire h σ x f).1 = false →
      ∀ p ∈ (rebalancing_acquire h σ x f).2.2,
        (rebalancing_acquire h σ x f).2.1 p = AANodeState.Open) ∧
    (∀ p, p ∉ (rebalancing_acquire h σ x f).2.2 →
      (rebalancing_acquire h σ x f).2.1 p = σ p) ∧
    (∀ p ∈ (rebalancing_acquire h σ x f).2.2, p = x ∨ p ≠ 0) := by
  by_cases hcas : σ x = f ∨ σ x = AANodeState.Open
  · have hcaseq : cas_to_balancing σ x f =
        (true, supdate σ x AANodeState.Balancing) := by
      unfold cas_to_balancing
      rw [if_pos hcas]
    obtain ⟨cands, hstep⟩ : ∃ cands, rebalancing_acquire h σ x f =
        acquire_list f (supdate σ x AANodeState.Balancing) [x] cands := by
      refine ⟨[(h x).parent, (h ((h x).parent)).parent, (h x).left,
        (h x).right,
        (if (h x).left ≠ 0 then (h ((h x).left)).right else 0),
        (if (h x).right ≠ 0 then (h ((h x).right)).left else 0),
        (if (h x).right ≠ 0 then (h ((h x).right)).right else 0)], ?_⟩
      simp only [rebalancing_acquire]
      rw [hcaseq]
    rw [hstep]
    have h1 : ∀ p ∈ [x], (σ p = AANodeState.Open ∨ σ p = f) ∧
        supdate σ x AANodeState.Balancing p = AANodeState.Balancing := by
      intro p hp
      rcases List.mem_cons.mp hp with rfl | hp2
      · refine ⟨hcas.symm, ?_⟩
        rw [supdate, if_pos rfl]
      · simp at hp2
    have h2 : ∀ p, p ∉ [x] → supdate σ x AANodeState.Balancing p = σ p := by
      intro p hp
      simp only [List.mem_cons, not_or] at hp
      rw [supdate, if_neg (by simpa using hp.1)]
    obtain ⟨g1, g2, g3, g4, g5⟩ := acquire_list_spec f cands σ _ [x] h1 h2
    refine ⟨g1, g2, g3, g4, ?_⟩
    intro p hp
    rcases g5 p hp with hin | hne
    · exact Or.inl (by simpa using hin)
    · exact Or.inr hne
  · have hcaseq : cas_to_balancing σ x f = (false, σ) := by
      unfold cas_to_balancing
      rw [if_neg hcas]
    have hstep : rebalancing_acquire h σ x f = (false, σ, []) := by
      simp only [rebalancing_acquire]
      rw [hcaseq]
    rw [hstep]
    refine ⟨?_, ?_, ?_, fun p _ => rfl, ?_⟩
    · intro p hp
      simp at hp
    · intro hc
      simp at hc
    · intro _ p hp
      simp at hp
    · intro p hp
      simp at hp

/-- The protocol never touches the sentinel's state: for x not NIL,
neither a rebalancing_acquire attempt (successful or failed) nor the
release of its acquired list changes the state stored for pointer 0. -/
theorem rebalancing_protocol_sentinel (h : Heap) (σ : StateMap) {x : Ptr}
    (f : AANodeState) (hx : x ≠ 0) :
    (rebalancing_acquire h σ x f).2.1 0 = σ 0 ∧
      release_all (rebalancing_acquire h σ x f).2.1
        (rebalancing_acquire h σ x f).2.2 0 = σ 0 := by
  obtain ⟨g1, g2, g3, g4, g5⟩ := rebalancing_acquire_spec h σ x f
  have h0 : (0 : Ptr) ∉ (rebalancing_acquire h σ x f).2.2 := by
    intro hc
    rcases g5 0 hc with h0 | h0
    · exact hx h0.symm
    · exact h0 rfl
  have hkeep := g4 0 h0
  refine ⟨hkeep, ?_⟩
  rw [release_all_not_mem _ _ _ h0]
  exact hkeep

/-- One store whose target is the shared sentinel node NIL, tagged by the
field written and (for child pointers and the level) the value stored.
Parent stores carry no value because the pure tree model has no parent
field; the development shows they never happen on trees the operations
build. -/
inductive NilWrite where
  | wleft (t : AATree)
  | wright (t : AATree)
  | wparent
  | wlevel (v : Int)
deriving DecidableEq, Repr

/-- The stores of node_atomic_set_right that target NIL. -/
def setRight_log : AATree → AATree → List NilWrite
  | nil, u => [NilWrite.wright u]
  | node _ _ _ _, _ => []

/-- The stores of node_atomic_set_level that target NIL. -/
def setLevel_log : AATree → Int → List NilWrite
  | nil, w => [NilWrite.wlevel w]
  | node _ _ _ _, _ => []

/-- The stores of skew (src/aatree.c lines 250-270) that target NIL: none
unless the rotation fires with a nil left child (a level-0 real node), in
which case set_right(y, x) and set_parent(y, x_parent) both write the
sentinel; set_left(x, ...) and set_parent(x, y) target x, and the
set_parent(y_right, x) store is guarded by y_right != NIL. -/
def skew_log : AATree → List NilWrite
  | nil => []
  | node l k v r =>
    if v = lvl l then
      match l with
      | nil => [NilWrite.wright (node nil k v r), NilWrite.wparent]
      | node _ _ _ _ => []
    else []

/-- The stores of split (src/aatree.c lines 281-303) that target NIL: none
unless the rotation fires with a nil right child, in which case
set_left(y, x), set_level(y, 1) and set_parent(y, x_parent) write the
sentinel. -/
def split_log : AATree → List NilWrite
  | nil => []
  | node l k v r =>
    if v = lvl (rightOf r) then
      match r with
      | nil => [NilWrite.wleft (node l k v nil), NilWrite.wlevel 1,
          NilWrite.wparent]
      | node _ _ _ _ => []
    else []

/-- Sentinel-directed stores of rebalance_on_insert. -/
def rebalance_on_insert_log (t : AATree) : List NilWrite :=
  skew_log t ++ split_log (skew t)

/-- Sentinel-directed stores of rebalance_on_remove, following the same
statement sequence as the executable model: the level cap, three skews and
two splits, plus the set_right stores that re-link the intermediate
results (set_level(current, v-1) targets the matched real node and never
logs). -/
def rebalance_on_remove_log : AATree → List NilWrite
  | nil => []
  | node l k v r =>
    if lvl l < v - 1 ∨ lvl r < v - 1 then
      let r1 := if lvl r > v - 1 then setLevel r (v - 1) else r
      let capLog := if lvl r > v - 1 then setLevel_log r (v - 1) else []
      let c1 := skew (node l k (v - 1) r1)
      let c2 := setRight c1 (skew (rightOf c1))
      let c3 := setRight c2 (setRight (rightOf c2) (skew (rightOf (rightOf c2))))
      let c4 := split c3
      capLog
        ++ skew_log (node l k (v - 1) r1)
        ++ skew_log (rightOf c1)
        ++ setRight_log c1 (skew (rightOf c1))
        ++ skew_log (rightOf (rightOf c2))
        ++ setRight_log (rightOf c2) (skew (rightOf (rightOf c2)))
        ++ setRight_log c2 (setRight (rightOf c2) (skew (rightOf (rightOf c2))))
        ++ split_log c3
        ++ split_log (rightOf c4)
        ++ setRight_log c4 (split (rightOf c4))
    else []

/-- Sentinel-directed stores of steal_leftmost: its own set_left targets
the current real node, so only the recursive call and the ancestor
rebalances log. -/
def steal_leftmost_log : AATree → List NilWrite
  | nil => []
  | node nil _ _ _ => []
  | node (node a x vx b) k v r =>
    steal_leftmost_log (node a x vx b)
      ++ rebalance_on_remove_log
          (node (steal_leftmost (node a x vx b)).1 k v r)

/-- Sentinel-directed stores of drop_this_node: the set_right(old, ...)
and the struct copy target real nodes, so only steal_leftmost logs. -/
def drop_this_node_log : AATree → List NilWrite
  | nil => []
  | node nil _ _ _ => []
  | node _ _ _ nil => []
  | node _ _ _ r => steal_leftmost_log r

/-- Sentinel-directed stores of remove_sub: the set_right/set_left
re-links target the current real node; the recursion and the
rebalance_on_remove calls log. -/
def remove_sub_log : AATree → Int → List NilWrite
  | nil, _ => []
  | node l x v r, k =>
    if k > x then
      remove_sub_log r k
        ++ rebalance_on_remove_log (node l x v (remove_sub r k))
    else if k < x then
      remove_sub_log l k
        ++ rebalance_on_remove_log (node (remove_sub l k) x v r)
    else
      drop_this_node_log (node l x v r)
        ++ rebalance_on_remove_log (drop_this_node (node l x v r))

/-- Sentinel-directed stores of insert_sub: the new node initialization
targets the caller's real node, the re-links target the current real node
and the (checked non-NIL) returned subtree root, so only the
rebalance_on_insert calls log. -/
def insert_sub_log : AATree → Int → List NilWrite
  | nil, _ => []
  | node l x v r, k =>
    if k > x then
      insert_sub_log r k
        ++ rebalance_on_insert_log (node l x v (insert_sub r k))
    else if k < x then
      insert_sub_log l k
        ++ rebalance_on_insert_log (node (insert_sub l k) x v r)
    else []

/-- Sentinel-directed stores of one public operation. -/
def applyOp_log (t : AATree) : TreeOp → List NilWrite
  | .insert k => insert_sub_log t k
  | .remove k => remove_sub_log t k

/-- Sentinel-directed stores of a whole operation sequence, threading the
tree from one operation to the next.  aatree_search, aatree_walk and
aatree_destroy perform no node stores at all in the source, so they
contribute nothing. -/
def buildTree_log : List TreeOp → AATree → List NilWrite
  | [], _ => []
  | op :: rest, t => applyOp_log t op ++ buildTree_log rest (applyOp t op)

theorem skew_log_empty {t : AATree} (hp : levelsPos t = true) :
    skew_log t = [] := by
  cases t with
  | nil => rfl
  | node l k v r =>
    simp only [levelsPos, Bool.and_eq_true, decide_eq_true_eq] at hp
    cases l with
    | nil =>
      simp only [skew_log, lvl_nil]
      rw [if_neg (by omega)]
    | node a ky vy b =>
      simp only [skew_log]
      split_ifs <;> rfl

theorem split_log_empty {t : AATree} (hp : levelsPos t = true) :
    split_log t = [] := by
  cases t with
  | nil => rfl
  | node l k v r =>
    simp only [levelsPos, Bool.and_eq_true, decide_eq_true_eq] at hp
    cases r with
    | nil =>
      simp only [split_log, rightOf_nil, lvl_nil]
      rw [if_neg (by omega)]
    | node rl ky vy rr =>
      simp only [split_log]
      split_ifs <;> rfl

theorem setRight_log_empty {t u : AATree} (h : t ≠ nil) :
    setRight_log t u = [] := by
  cases t with
  | nil => exact absurd rfl h
  | node l k v r => rfl

theorem setRight_ne_nil {t u : AATree} (h : t ≠ nil) : setRight t u ≠ nil := by
  cases t with
  | nil => exact absurd rfl h
  | node l k v r => intro hc; cases hc

theorem skew_ne_nil {t : AATree} (hp : levelsPos t = true) (hne : t ≠ nil) :
    skew t ≠ nil := by
  cases t with
  | nil => exact absurd rfl hne
  | node l k v r =>
    simp only [levelsPos, Bool.and_eq_true, decide_eq_true_eq] at hp
    cases l with
    | nil =>
      rw [skew_skip (by rw [lvl_nil]; omega)]
      intro hc
      cases hc
    | node a ky vy b =>
      simp only [skew]
      split_ifs with hc <;> intro hcc <;> cases hcc

theorem split_ne_nil {t : AATree} (hp : levelsPos t = true) (hne : t ≠ nil) :
    split t ≠ nil := by
  cases t with
  | nil => exact absurd rfl hne
  | node l k v r =>
    simp only [levelsPos, Bool.and_eq_true, decide_eq_true_eq] at hp
    cases r with
    | nil =>
      rw [split_skip (by rw [rightOf_nil, lvl_nil]; omega)]
      intro hc
      cases hc
    | node rl ky vy rr =>
      simp only [split]
      split_ifs with hc <;> intro hcc <;> cases hcc

theorem rebalance_on_remove_log_benign {t : AATree} (hp : levelsPos t = true) :
    ∀ w ∈ rebalance_on_remove_log t, w = NilWrite.wright nil := by
  cases t with
  | nil => intro w hw; simp [rebalance_on_remove_log] at hw
  | node l k v r =>
    simp only [levelsPos, Bool.and_eq_true, decide_eq_true_eq] at hp
    obtain ⟨⟨hv, hl⟩, hr⟩ := hp
    intro w hw
    by_cases hfire : lvl l < v - 1 ∨ lvl r < v - 1
    · have hln := lvl_nonneg_of_levelsPos hl
      have hrn := lvl_nonneg_of_levelsPos hr
      have hv2 : (2 : Int) ≤ v := by rcases hfire with h1 | h1 <;> omega
      simp only [rebalance_on_remove_log, if_pos hfire] at hw
      set R1 := if lvl r > v - 1 then setLevel r (v - 1) else r with hR1
      set C1 := skew (node l k (v - 1) R1) with hC1
      set C2 := setRight C1 (skew (rightOf C1)) with hC2
      set C3 := setRight C2
        (setRight (rightOf C2) (skew (rightOf (rightOf C2)))) with hC3
      set C4 := split C3 with hC4
      have hpR1 : levelsPos R1 = true := by
        rw [hR1]
        split_ifs with hcap
        · exact levelsPos_setLevel hr (by omega)
        · exact hr
      have hpA : levelsPos (node l k (v - 1) R1) = true := by
        simp only [levelsPos, Bool.and_eq_true, decide_eq_true_eq]
        exact ⟨⟨by omega, hl⟩, hpR1⟩
      have hAne : (node l k (v - 1) R1 : AATree) ≠ nil := by
        intro hc; cases hc
      have hpC1 : levelsPos C1 = true := by
        rw [hC1]; exact levelsPos_skew hpA
      have hC1ne : C1 ≠ nil := by
        rw [hC1]; exact skew_ne_nil hpA hAne
      have hpC2 : levelsPos C2 = true := by
        rw [hC2]
        exact levelsPos_setRight hpC1 (levelsPos_skew (levelsPos_rightOf hpC1))
      have hC2ne : C2 ≠ nil := by
        rw [hC2]; exact setRight_ne_nil hC1ne
      have hpC3 : levelsPos C3 = true := by
        rw [hC3]
        exact levelsPos_setRight hpC2 (levelsPos_setRight
          (levelsPos_rightOf hpC2)
          (levelsPos_skew (levelsPos_rightOf (levelsPos_rightOf hpC2))))
      have hC3ne : C3 ≠ nil := by
        rw [hC3]; exact setRight_ne_nil hC2ne
      have hpC4 : levelsPos C4 = true := by
        rw [hC4]; exact levelsPos_split hpC3
      have hC4ne : C4 ≠ nil := by
        rw [hC4]; exact split_ne_nil hpC3 hC3ne
      simp only [List.mem_append] at hw
      rcases hw with ((((((((hw | hw) | hw) | hw) | hw) | hw) | hw) | hw)
        | hw) | hw
      · split_ifs at hw with hcap
        · cases r with
          | nil => rw [lvl_nil] at hcap; omega
          | node rl rk rv rr => simp [setLevel_log] at hw
        · simp at hw
      · rw [skew_log_empty hpA] at hw; simp at hw
      · rw [skew_log_empty (levelsPos_rightOf hpC1)] at hw; simp at hw
      · rw [setRight_log_empty hC1ne] at hw; simp at hw
      · rw [skew_log_empty (levelsPos_rightOf (levelsPos_rightOf hpC2))] at hw
        simp at hw
      · cases hC2r : rightOf C2 with
        | nil =>
          rw [hC2r, rightOf_nil] at hw
          simp only [setRight_log, List.mem_cons, List.not_mem_nil,
            or_false] at hw
          rw [hw]; rfl
        | node q1 q2 q3 q4 =>
          rw [hC2r] at hw
          simp [setRight_log] at hw
      · rw [setRight_log_empty hC2ne] at hw; simp at hw
      · rw [split_log_empty hpC3] at hw; simp at hw
      · rw [split_log_empty (levelsPos_rightOf hpC4)] at hw; simp at hw
      · rw [setRight_log_empty hC4ne] at hw; simp at hw
    · simp only [rebalance_on_remove_log, if_neg hfire] at hw
      simp at hw

theorem rebalance_on_insert_log_empty {t : AATree} (hp : levelsPos t = true) :
    rebalance_on_insert_log t = [] := by
  simp only [rebalance_on_insert_log]
  rw [skew_log_empty hp, split_log_empty (levelsPos_skew hp)]
  rfl

theorem steal_leftmost_log_benign : ∀ {t : AATree}, levelsPos t = true →
    ∀ w ∈ steal_leftmost_log t, w = NilWrite.wright nil := by
  intro t
  induction t with
  | nil => intro _ w hw; simp [steal_leftmost_log] at hw
  | node l k v r ihl ihr =>
    intro hp w hw
    simp only [levelsPos, Bool.and_eq_true, decide_eq_true_eq] at hp
    obtain ⟨⟨hv, hl⟩, hr⟩ := hp
    cases l with
    | nil => simp [steal_leftmost_log] at hw
    | node a x vx b =>
      simp only [steal_leftmost_log, List.mem_append] at hw
      rcases hw with hw | hw
      · exact ihl hl w hw
      · refine rebalance_on_remove_log_benign ?_ w hw
        have hne : (node a x vx b : AATree) ≠ nil := by intro hc; cases hc
        have hs1 := (steal_leftmost_facts hne hl).2
        simp only [levelsPos, Bool.and_eq_true, decide_eq_true_eq]
        exact ⟨⟨hv, hs1⟩, hr⟩

theorem drop_this_node_log_benign {l : AATree} {k v : Int} {r : AATree}
    (hp : levelsPos (node l k v r) = true) :
    ∀ w ∈ drop_this_node_log (node l k v r), w = NilWrite.wright nil := by
  simp only [levelsPos, Bool.and_eq_true, decide_eq_true_eq] at hp
  obtain ⟨⟨hv, hl⟩, hr⟩ := hp
  intro w hw
  cases l with
  | nil => simp [drop_this_node_log] at hw
  | node a x vx b =>
    cases r with
    | nil => simp [drop_this_node_log] at hw
    | node c y vy d =>
      simp only [drop_this_node_log] at hw
      exact steal_leftmost_log_benign hr w hw

theorem remove_sub_log_benign : ∀ {t : AATree} (k : Int), sortedKeys t →
    levelsPos t = true →
    ∀ w ∈ remove_sub_log t k, w = NilWrite.wright nil := by
  intro t
  induction t with
  | nil => intro k _ _ w hw; simp [remove_sub_log] at hw
  | node l x v r ihl ihr =>
    intro k hs hp w hw
    have hpn := hp
    simp only [levelsPos, Bool.and_eq_true, decide_eq_true_eq] at hp
    obtain ⟨⟨hv, hl⟩, hr⟩ := hp
    rw [sortedKeys_node_iff] at hs
    obtain ⟨hsl, hsr, hbl, hbr⟩ := hs
    by_cases hgt : k > x
    · simp only [remove_sub_log, if_pos hgt, List.mem_append] at hw
      rcases hw with hw | hw
      · exact ihr k hsr hr w hw
      · refine rebalance_on_remove_log_benign ?_ w hw
        have hrp := (remove_sub_facts k hsr hr).2
        simp only [levelsPos, Bool.and_eq_true, decide_eq_true_eq]
        exact ⟨⟨hv, hl⟩, hrp⟩
    · by_cases hlt : k < x
      · simp only [remove_sub_log, if_neg hgt, if_pos hlt,
          List.mem_append] at hw
        rcases hw with hw | hw
        · exact ihl k hsl hl w hw
        · refine rebalance_on_remove_log_benign ?_ w hw
          have hlp := (remove_sub_facts k hsl hl).2
          simp only [levelsPos, Bool.and_eq_true, decide_eq_true_eq]
          exact ⟨⟨hv, hlp⟩, hr⟩
      · simp only [remove_sub_log, if_neg hgt, if_neg hlt,
          List.mem_append] at hw
        rcases hw with hw | hw
        · exact drop_this_node_log_benign hpn w hw
        · exact rebalance_on_remove_log_benign
            (drop_this_node_facts hpn).2 w hw

theorem insert_sub_log_benign : ∀ {t : AATree} (k : Int), sortedKeys t →
    levelsPos t = true →
    ∀ w ∈ insert_sub_log t k, w = NilWrite.wright nil := by
  intro t
  induction t with
  | nil => intro k _ _ w hw; simp [insert_sub_log] at hw
  | node l x v r ihl ihr =>
    intro k hs hp w hw
    simp only [levelsPos, Bool.and_eq_true, decide_eq_true_eq] at hp
    obtain ⟨⟨hv, hl⟩, hr⟩ := hp
    rw [sortedKeys_node_iff] at hs
    obtain ⟨hsl, hsr, hbl, hbr⟩ := hs
    by_cases hgt : k > x
    · simp only [insert_sub_log, if_pos hgt, List.mem_append] at hw
      rcases hw with hw | hw
      · exact ihr k hsr hr w hw
      · have hrp := (insert_sub_facts k hsr hr).1
        rw [rebalance_on_insert_log_empty (by
          simp only [levelsPos, Bool.and_eq_true, decide_eq_true_eq]
          exact ⟨⟨hv, hl⟩, hrp⟩)] at hw
        simp at hw
    · by_cases hlt : k < x
      · simp only [insert_sub_log, if_neg hgt, if_pos hlt,
          List.mem_append] at hw
        rcases hw with hw | hw
        · exact ihl k hsl hl w hw
        · have hlp := (insert_sub_facts k hsl hl).1
          rw [rebalance_on_insert_log_empty (by
            simp only [levelsPos, Bool.and_eq_true, decide_eq_true_eq]
            exact ⟨⟨hv, hlp⟩, hr⟩)] at hw
          simp at hw
      · simp only [insert_sub_log, if_neg hgt, if_neg hlt] at hw
        simp at hw

theorem buildTree_log_benign (ops : List TreeOp) :
    ∀ w ∈ buildTree_log ops nil, w = NilWrite.wright nil := by
  suffices h : ∀ (t : AATree), sortedKeys t → levelsPos t = true →
      ∀ w ∈ buildTree_log ops t, w = NilWrite.wright nil from
    h nil (by simp [sortedKeys, inorder]) rfl
  induction ops with
  | nil => intro t _ _ w hw; simp [buildTree_log] at hw
  | cons op rest ih =>
    intro t hs hp w hw
    simp only [buildTree_log, List.mem_append] at hw
    rcases hw with hw | hw
    · cases op with
      | insert k => exact insert_sub_log_benign k hs hp w hw
      | remove k => exact remove_sub_log_benign k hs hp w hw
    · obtain ⟨hs2, hp2⟩ := applyOp_facts op hs hp
      exact ih (applyOp t op) hs2 hp2 w hw

/-- A concrete heap for exercising the acquisition protocol: every cell has
NIL children, parent 2 and level 0. -/
def exampleHeap : Heap := fun _ => ⟨0, 0, 2, 0⟩

/-- A concrete state map with node 2 already Balancing. -/
def exampleBusyStates : StateMap := fun q =>
  if q = 2 then AANodeState.Balancing else AANodeState.Open

/-- A concrete state map with every node Open. -/
def exampleOpenStates : StateMap := fun _ => AANodeState.Open

/-- A concrete state map with every node in the Insert state. -/
def exampleInsertStates : StateMap := fun _ => AANodeState.Insert

/-- A concrete heap for exercising skew: node 1 has left child 2 at the
same level 7, node 2 has right child 3, node 3 is a lower subtree. -/
def exampleSkewHeap : Heap := fun p =>
  if p = 1 then ⟨2, 4, 0, 7⟩
  else if p = 2 then ⟨5, 3, 1, 7⟩
  else if p = 3 then ⟨6, 0, 2, 6⟩
  else ⟨0, 0, 0, 0⟩

/-- Claim C1: starting from an empty tree, after any sequential sequence of
aatree_insert and aatree_remove calls, the in-order traversal of the
resulting tree visits keys in strictly ascending order and the tree passes
the structural level checker: every real node's left-child level is the
node's level minus 1, its right-child level is the node's level or the
node's level minus 1, and no node has a right-right grandchild at its own
level. -/
theorem claim_C1_invariants_after_any_sequence (ops : List TreeOp) :
    sortedKeys (buildTree ops) ∧ levelsChecker (buildTree ops) = true :=
  ⟨(buildTree_facts ops).1, levelsChecker_of_invar (buildTree_invar ops)⟩

/-- Claim C2: after any sequence of aatree_insert calls with
pairwise-distinct keys starting from the empty tree, aatree_search returns
a node carrying the searched key for every inserted key, and returns the
not-found marker (none) for every key that was never inserted. -/
theorem claim_C2_insert_then_search (ks : List Int) (k : Int)
    (hdist : ks.Nodup) :
    (k ∈ ks → ∃ l v r,
      aatree_search (buildTree (ks.map TreeOp.insert)) k
        = some (node l k v r)) ∧
    (k ∉ ks → aatree_search (buildTree (ks.map TreeOp.insert)) k = none) := by
  have hsT := (buildTree_facts (ks.map TreeOp.insert)).1
  constructor
  · intro hm
    exact aatree_search_found hsT ((buildTree_inserts_mem ks k).mpr hm)
  · intro hnm
    exact aatree_search_not_found
      (fun hc => hnm ((buildTree_inserts_mem ks k).mp hc))

theorem claim_C2_insert_then_search_witness :
    ((2 : Int) ∈ ([2, 1, 3] : List Int) → ∃ l v r,
      aatree_search (buildTree (([2, 1, 3] : List Int).map TreeOp.insert)) 2
        = some (node l 2 v r)) ∧
    ((2 : Int) ∉ ([2, 1, 3] : List Int) →
      aatree_search (buildTree (([2, 1, 3] : List Int).map TreeOp.insert)) 2
        = none) :=
  claim_C2_insert_then_search [2, 1, 3] 2 (by decide)

/-- Claim C3: in a tree built by sequential inserts of distinct keys,
removing a present key k and then searching for k returns not-found
(none), while every other previously present key is still found. -/
theorem claim_C3_remove_then_search (ks : List Int) (k k2 : Int)
    (hdist : ks.Nodup) (hk : k ∈ ks) (hk2 : k2 ∈ ks) (hne : k2 ≠ k) :
    aatree_search
        (aatree_remove (buildTree (ks.map TreeOp.insert)) k) k = none ∧
    ∃ l v r, aatree_search
        (aatree_remove (buildTree (ks.map TreeOp.insert)) k) k2
      = some (node l k2 v r) := by
  have hsT := (buildTree_facts (ks.map TreeOp.insert)).1
  have hpT := (buildTree_facts (ks.map TreeOp.insert)).2
  obtain ⟨hfil, hplev⟩ := remove_sub_facts k hsT hpT
  simp only [aatree_remove]
  have hsorted2 : sortedKeys
      (remove_sub (buildTree (ks.map TreeOp.insert)) k) := by
    show List.Pairwise (· < ·)
      (inorder (remove_sub (buildTree (ks.map TreeOp.insert)) k))
    rw [hfil]
    exact List.Pairwise.filter _ hsT
  constructor
  · apply aatree_search_not_found
    rw [hfil]
    simp [List.mem_filter]
  · apply aatree_search_found hsorted2
    rw [hfil, List.mem_filter]
    refine ⟨(buildTree_inserts_mem ks k2).mpr hk2, by simp [hne]⟩

theorem claim_C3_remove_then_search_witness :
    aatree_search
        (aatree_remove (buildTree (([1, 2, 3] : List Int).map TreeOp.insert))
          2) 2 = none ∧
    ∃ l v r, aatree_search
        (aatree_remove (buildTree (([1, 2, 3] : List Int).map TreeOp.insert))
          2) 3
      = some (node l 3 v r) :=
  claim_C3_remove_then_search [1, 2, 3] 2 3 (by decide) (by decide)
    (by decide) (by decide)

/-- Claim C4: inserting a key that compares equal to a node already in the
tree leaves the tree identical — node set, shape and count unchanged —
because insert_sub returns the existing node without linking the new one. -/
theorem claim_C4_duplicate_insert_noop (ops : List TreeOp) (k : Int)
    (hm : k ∈ inorder (buildTree ops)) :
    aatree_insert (buildTree ops) k = buildTree ops :=
  insert_sub_mem_id (buildTree_invar ops) (buildTree_facts ops).1 hm

theorem claim_C4_duplicate_insert_noop_witness :
    aatree_insert (buildTree [TreeOp.insert 5, TreeOp.insert 3]) 3
      = buildTree [TreeOp.insert 5, TreeOp.insert 3] :=
  claim_C4_duplicate_insert_noop [TreeOp.insert 5, TreeOp.insert 3] 3
    (by decide)

/-- Claim C5: whenever a rebalancing acquisition attempt fails on any
claim, every node already claimed in that same attempt is back in the Open
(idle) state when the attempt reports failure, so no node stays reserved
by a failed attempt. -/
theorem claim_C5_failed_acquire_releases (h : Heap) (σ : StateMap)
    (x p : Ptr) (f : AANodeState)
    (hfail : (rebalancing_acquire h σ x f).1 = false)
    (hp : p ∈ (rebalancing_acquire h σ x f).2.2) :
    (rebalancing_acquire h σ x f).2.1 p = AANodeState.Open :=
  (rebalancing_acquire_spec h σ x f).2.2.1 hfail p hp

theorem claim_C5_failed_acquire_releases_witness :
    (rebalancing_acquire exampleHeap exampleBusyStates 1
        AANodeState.Open).2.1 1 = AANodeState.Open :=
  claim_C5_failed_acquire_releases exampleHeap exampleBusyStates 1 1
    AANodeState.Open (by decide) (by decide)

/-- Claim C6 (amended): each claim of the acquisition protocol is a CAS to
Balancing whose expected state is Open OR the caller-supplied state_from
(Insert for insert-path rebalances), so every acquired node was previously
Open or in state_from, and after a successful attempt every acquired node
is Balancing.  The original claim — that only Open nodes can ever be
claimed — is refuted by the counterexample below. -/
theorem claim_C6_acquire_cas_amended (h : Heap) (σ : StateMap) (x : Ptr)
    (f : AANodeState) (p : Ptr)
    (hp : p ∈ (rebalancing_acquire h σ x f).2.2) :
    (σ p = AANodeState.Open ∨ σ p = f) ∧
      ((rebalancing_acquire h σ x f).1 = true →
        (rebalancing_acquire h σ x f).2.1 p = AANodeState.Balancing) := by
  obtain ⟨g1, g2, _, _, _⟩ := rebalancing_acquire_spec h σ x f
  exact ⟨g1 p hp, fun hs => g2 hs p hp⟩

theorem claim_C6_acquire_cas_amended_witness :
    (exampleOpenStates 1 = AANodeState.Open ∨
        exampleOpenStates 1 = AANodeState.Open) ∧
      ((rebalancing_acquire exampleHeap exampleOpenStates 1
          AANodeState.Open).1 = true →
        (rebalancing_acquire exampleHeap exampleOpenStates 1
            AANodeState.Open).2.1 1 = AANodeState.Balancing) :=
  claim_C6_acquire_cas_amended exampleHeap exampleOpenStates 1
    AANodeState.Open 1 (by decide)

/-- Claim C6, counterexample to the original statement: with every node in
the Insert state and state_from = Insert (as rebalance_on_insert passes),
the acquisition succeeds and node 1 is claimed even though its prior state
was not Open — the CAS accepts state_from as well as Open. -/
theorem claim_C6_counterexample :
    exampleInsertStates 1 ≠ AANodeState.Open ∧
    (rebalancing_acquire exampleHeap exampleInsertStates 1
        AANodeState.Insert).1 = true ∧
    1 ∈ (rebalancing_acquire exampleHeap exampleInsertStates 1
        AANodeState.Insert).2.2 :=
  ⟨by decide, by decide, by decide⟩

/-- Claim C7: when x's level equals its left child y's level and x is not
the sentinel, skew returns y as the new subtree root, x's left child
becomes y's former right child yr, x becomes y's right child, and the
parent back-references of every moved node (x's parent becomes y, y's
parent becomes x's old parent, and yr's parent becomes x when yr is real)
are updated, with every other heap cell untouched; in every other case
skew returns x with the heap unchanged. -/
theorem claim_C7_skew_rotation_with_parents (h : Heap) (x y yr : Ptr)
    (hy : (h x).left = y) (hyr : (h y).right = yr)
    (hxy : x ≠ y) (hxyr : x ≠ yr) (hyyr : y ≠ yr) :
    ((h x).level = (h y).level ∧ x ≠ 0 →
      (skewH h x).2 = y ∧
        ∀ p : Ptr, (skewH h x).1 p =
          if p = x then { h x with left := yr, parent := y }
          else if p = y then { h y with right := x, parent := (h x).parent }
          else if p = yr ∧ yr ≠ 0 then { h yr with parent := x }
          else h p) ∧
    (¬ ((h x).level = (h y).level ∧ x ≠ 0) → skewH h x = (h, x)) := by
  constructor
  · intro hc
    exact skewH_rotation hy hyr hc.2 hc.1 hxy hxyr hyyr
  · intro hc
    apply skewH_id
    rw [hy]
    exact hc

theorem claim_C7_skew_rotation_with_parents_witness :
    ((exampleSkewHeap 1).level = (exampleSkewHeap 2).level ∧ (1 : Ptr) ≠ 0 →
      (skewH exampleSkewHeap 1).2 = 2 ∧
        ∀ p : Ptr, (skewH exampleSkewHeap 1).1 p =
          if p = 1 then
            { exampleSkewHeap 1 with left := 3, parent := 2 }
          else if p = 2 then
            { exampleSkewHeap 2 with
              right := 1, parent := (exampleSkewHeap 1).parent }
          else if p = 3 ∧ (3 : Ptr) ≠ 0 then
            { exampleSkewHeap 3 with parent := 1 }
          else exampleSkewHeap p) ∧
    (¬ ((exampleSkewHeap 1).level = (exampleSkewHeap 2).level ∧
        (1 : Ptr) ≠ 0) →
      skewH exampleSkewHeap 1 = (exampleSkewHeap, 1)) :=
  claim_C7_skew_rotation_with_parents exampleSkewHeap 1 2 3 rfl rfl
    (by decide) (by decide) (by decide)

/-- Claim C8: no operation mutates the shared sentinel: across any
sequence of inserts and removes, every store whose target is the sentinel
is a set_right of NIL itself (leaving its left, right and parent all
pointing to itself and its level 0), and the acquisition/release protocol
never changes the sentinel's state, which stays idle. -/
theorem claim_C8_sentinel_never_mutated (ops : List TreeOp) (h : Heap)
    (σ : StateMap) (x : Ptr) (f : AANodeState) (hx : x ≠ 0) :
    (∀ w ∈ buildTree_log ops nil, w = NilWrite.wright nil) ∧
    ((rebalancing_acquire h σ x f).2.1 0 = σ 0 ∧
      release_all (rebalancing_acquire h σ x f).2.1
        (rebalancing_acquire h σ x f).2.2 0 = σ 0) :=
  ⟨buildTree_log_benign ops, rebalancing_protocol_sentinel h σ f hx⟩

theorem claim_C8_sentinel_never_mutated_witness :
    (∀ w ∈ buildTree_log
        [TreeOp.insert 1, TreeOp.insert 2, TreeOp.remove 1] nil,
      w = NilWrite.wright nil) ∧
    ((rebalancing_acquire exampleHeap exampleOpenStates 1
          AANodeState.Open).2.1 0 = exampleOpenStates 0 ∧
      release_all (rebalancing_acquire exampleHeap exampleOpenStates 1
            AANodeState.Open).2.1
          (rebalancing_acquire exampleHeap exampleOpenStates 1
            AANodeState.Open).2.2 0 = exampleOpenStates 0) :=
  claim_C8_sentinel_never_mutated
    [TreeOp.insert 1, TreeOp.insert 2, TreeOp.remove 1]
    exampleHeap exampleOpenStates 1 AANodeState.Open (by decide)

/-- Claim C10 (amended): on every subtree all of whose real nodes have
positive level — true of every tree the operations build, where levels
start at 1 — skew and split preserve the in-order key sequence, and with
it the set of reachable real nodes.  The original unconditional claim is
refuted by the counterexample below: on a corrupt level-0 node with a NIL
left child, skew returns the sentinel and drops the subtree. -/
theorem claim_C10_skew_split_preserve_inorder (t : AATree)
    (hp : levelsPos t = true) :
    inorder (skew t) = inorder t ∧ inorder (split t) = inorder t :=
  ⟨inorder_skew hp, inorder_split hp⟩

theorem claim_C10_skew_split_preserve_inorder_witness :
    inorder (skew (node nil 2 1 nil)) = inorder (node nil 2 1 nil) ∧
      inorder (split (node nil 2 1 nil)) = inorder (node nil 2 1 nil) :=
  claim_C10_skew_split_preserve_inorder (node nil 2 1 nil) (by decide)

/-- Claim C10, counterexample to the original statement: a real node at
level 0 with a NIL left child satisfies skew's rotation condition with the
sentinel as y, so skew returns the sentinel and loses the node from the
in-order sequence. -/
theorem claim_C10_counterexample :
    inorder (skew (node nil 5 0 nil)) ≠ inorder (node nil 5 0 nil) := by
  decide

end AATree
